import Mathlib

/-!
# Verification of the memory-allocation engine

Shallow embedding of `src/memory_manager/memory.py` (classes `MemoryBlock` and
`MemoryManager`).  Python's unbounded integers are modelled by `Int`; wall-clock
timestamps (`time.time()`) are modelled by a logical clock `clock : Nat` on the
manager that advances every time the source reads the clock to stamp a block;
object identity (needed because `replacement_queue` holds references to block
objects that outlive their membership in `blocks`) is modelled by a unique
`id : Nat` on each block, with removed objects kept frozen in a `graveyard`
so that a queued reference can still be dereferenced, exactly as a Python
reference keeps the popped object alive.  The allocation cascade
(`allocate` → `page_replace` → `allocate`) is modelled with explicit fuel;
the theorem for claim C4 shows the chosen fuel bound is never exhausted.
-/

/-- Embeds class `MemoryBlock` (memory.py lines 6-13).  `id` models object
identity, `timestamp` the `time.time()` stamp as a logical clock value. -/
structure MemoryBlock where
  id : Nat
  start : Int
  size : Int
  is_free : Bool
  process_id : Option Int
  timestamp : Nat
  access_count : Nat
  deriving DecidableEq, Repr

/-- Embeds the state of class `MemoryManager` (memory.py lines 15-25).
`replacement_queue` stores block object identities; `graveyard` holds block
objects that were removed from `blocks` but may still be referenced from the
queue (Python keeps them alive and frozen); `next_id` and `clock` are the
modelling devices for object identity and `time.time()`.
`allocation_history` keeps the `(process_id, size)` part of the history
entries; the wall-clock latency part is not modelled.
`last_allocation_index` models the optional attribute
`_last_allocation_index` (absent until the first Next Fit success). -/
structure MemoryManager where
  total_size : Int
  blocks : List MemoryBlock
  algorithm : String
  page_replacement_algorithm : String
  failed_allocations : Nat
  total_allocations : Nat
  allocation_history : List (Int × Int)
  compaction_count : Nat
  replacement_queue : List Nat
  last_allocation_index : Option Nat
  next_id : Nat
  clock : Nat
  graveyard : List MemoryBlock
  deriving DecidableEq, Repr

/-- Embeds `MemoryManager.__init__(total_size)` (memory.py lines 16-25):
a single free block spanning the whole capacity. -/
def mkManager (total_size : Int) : MemoryManager :=
  { total_size := total_size
    blocks := [⟨0, 0, total_size, true, none, 0, 0⟩]
    algorithm := "First Fit"
    page_replacement_algorithm := "FIFO"
    failed_allocations := 0
    total_allocations := 0
    allocation_history := []
    compaction_count := 0
    replacement_queue := []
    last_allocation_index := none
    next_id := 1
    clock := 1
    graveyard := [] }

/-- Sum of the `size` fields of a list of blocks. -/
def sumSizes : List MemoryBlock → Int
  | [] => 0
  | b :: rest => b.size + sumSizes rest

/-- `chainFrom pos l` holds when the blocks of `l` tile the address space
contiguously starting at `pos`: each block starts where the previous one
ends. -/
def chainFrom : Int → List MemoryBlock → Bool
  | _, [] => true
  | pos, b :: rest => (b.start == pos) && chainFrom (pos + b.size) rest

/-- No two adjacent blocks are both free. -/
def noAdjFree : List MemoryBlock → Bool
  | a :: b :: rest => (!(a.is_free && b.is_free)) && noAdjFree (b :: rest)
  | _ => true

/-- Every block has positive size. -/
def allPos : List MemoryBlock → Bool
  | [] => true
  | b :: rest => decide (0 < b.size) && allPos rest

/-- Adjacent starts strictly ascending. -/
def ascStart : List MemoryBlock → Bool
  | a :: b :: rest => decide (a.start < b.start) && ascStart (b :: rest)
  | _ => true

/-- Eligibility test every placement algorithm uses on a block:
`block.is_free and block.size >= size`. -/
def elig (size : Int) (b : MemoryBlock) : Bool :=
  b.is_free && decide (size ≤ b.size)

/-- Embeds `_first_fit`'s scan (memory.py lines 77-81): index of the first
eligible block, indices offset for the recursion. -/
def firstFitAux (size : Int) : List MemoryBlock → Nat → Option Nat
  | [], _ => none
  | b :: rest, i => if elig size b then some i else firstFitAux size rest (i + 1)

/-- Index chosen by `_first_fit` (memory.py lines 77-81). -/
def firstFitIdx (size : Int) (blocks : List MemoryBlock) : Option Nat :=
  firstFitAux size blocks 0

/-- Embeds `min((block for ... if eligible), key=lambda b: b.size)` followed by
`self.blocks.index(best_fit)` (memory.py lines 83-88).  Python's `min` returns
the first element attaining the minimal key and `list.index` finds that very
object (object identity), so the composite returns the index and size of the
first eligible block of minimal size.  A later candidate replaces the current
best only when its key is strictly smaller, exactly as `min` scans. -/
def bestFitAux (size : Int) : List MemoryBlock → Option (Nat × Int)
  | [] => none
  | b :: rest =>
    match bestFitAux size rest with
    | some (j, s) =>
      if elig size b then
        (if s < b.size then some (j + 1, s) else some (0, b.size))
      else some (j + 1, s)
    | none => if elig size b then some (0, b.size) else none

/-- Index chosen by `_best_fit` (memory.py lines 83-88). -/
def bestFitIdx (size : Int) (blocks : List MemoryBlock) : Option Nat :=
  (bestFitAux size blocks).map (fun p => p.1)

/-- Embeds `max((block for ... if eligible), key=lambda b: b.size)` followed by
`self.blocks.index(worst_fit)` (memory.py lines 90-95): first eligible block of
maximal size (Python's `max` keeps the first of equal keys). -/
def worstFitAux (size : Int) : List MemoryBlock → Option (Nat × Int)
  | [] => none
  | b :: rest =>
    match worstFitAux size rest with
    | some (j, s) =>
      if elig size b then
        (if b.size < s then some (j + 1, s) else some (0, b.size))
      else some (j + 1, s)
    | none => if elig size b then some (0, b.size) else none

/-- Index chosen by `_worst_fit` (memory.py lines 90-95). -/
def worstFitIdx (size : Int) (blocks : List MemoryBlock) : Option Nat :=
  (worstFitAux size blocks).map (fun p => p.1)

/-- Embeds the scan of `_next_fit` (memory.py lines 97-104): examine
`len(blocks)` positions `(start + i) % len(blocks)` for `i = 0, 1, ...`;
the first argument counts the remaining iterations. -/
def nextFitAux (size : Int) (blocks : List MemoryBlock) (start : Nat) : Nat → Nat → Option Nat
  | 0, _ => none
  | r + 1, i =>
    match blocks.get? ((start + i) % blocks.length) with
    | some b =>
      if elig size b then some ((start + i) % blocks.length)
      else nextFitAux size blocks start r (i + 1)
    | none => nextFitAux size blocks start r (i + 1)

/-- Index chosen by `_next_fit`'s scan (memory.py lines 97-104). -/
def nextFitIdx (size : Int) (blocks : List MemoryBlock) (start : Nat) : Option Nat :=
  nextFitAux size blocks start blocks.length 0

/-- List surgery performed by `_split_block` (memory.py lines 106-117) at a
given index: if the block is larger than the request it is shrunk to `size`
and a fresh free remainder block (identity `nid`, construction time `clk`) is
inserted right after it; in both cases the chosen block is marked occupied
with the given owner, its timestamp refreshed and its access count bumped.
In the splitting case the remainder is constructed first (`time.time()` at
`clk`) and the chosen block restamped afterwards (`clk + 1`). -/
def splitList (size pid : Int) (nid clk : Nat) : Nat → List MemoryBlock → List MemoryBlock
  | _, [] => []
  | 0, b :: rest =>
    if size < b.size then
      { b with size := size, is_free := false, process_id := some pid,
               timestamp := clk + 1, access_count := b.access_count + 1 }
        :: ⟨nid, b.start + size, b.size - size, true, none, clk, 0⟩ :: rest
    else
      { b with is_free := false, process_id := some pid,
               timestamp := clk, access_count := b.access_count + 1 } :: rest
  | i + 1, b :: rest => b :: splitList size pid nid clk i rest

/-- Embeds `_split_block` (memory.py lines 106-117): performs the surgery of
`splitList` on the manager, appends the chosen block's identity to
`replacement_queue`, and returns the chosen block's start. -/
def splitBlock (m : MemoryManager) (i : Nat) (size pid : Int) : Int × MemoryManager :=
  match m.blocks.get? i with
  | none => (0, m)
  | some b =>
    if size < b.size then
      (b.start,
        { m with blocks := splitList size pid m.next_id m.clock i m.blocks,
                 next_id := m.next_id + 1, clock := m.clock + 2,
                 replacement_queue := m.replacement_queue ++ [b.id] })
    else
      (b.start,
        { m with blocks := splitList size pid m.next_id m.clock i m.blocks,
                 clock := m.clock + 1,
                 replacement_queue := m.replacement_queue ++ [b.id] })

/-- The scan of `deallocate` (memory.py lines 119-126): find the first block
with the exact start that is not free, mark it free and clear its owner;
`none` when no such block exists. -/
def deallocAux (start : Int) : List MemoryBlock → Option (List MemoryBlock)
  | [] => none
  | b :: rest =>
    if b.start == start && !b.is_free then
      some ({ b with is_free := true, process_id := none } :: rest)
    else (deallocAux start rest).map (fun l => b :: l)

/-- Embeds `_merge_free_blocks` (memory.py lines 128-135): coalesce every run
of adjacent free blocks into its first block, whose size becomes the run's
total.  The source's left-to-right while-loop is expressed as a right fold
with the same result: a block absorbs the (already coalesced) head of its
tail when both are free.  The second component collects the absorbed blocks
(the objects `list.pop` removes), which stay frozen in the graveyard. -/
def mergeFreeBlocks : List MemoryBlock → List MemoryBlock × List MemoryBlock
  | [] => ([], [])
  | a :: rest =>
    match mergeFreeBlocks rest with
    | (b :: merged, grave) =>
      if a.is_free && b.is_free then
        ({ a with size := a.size + b.size } :: merged, b :: grave)
      else (a :: b :: merged, grave)
    | ([], grave) => ([a], grave)

/-- Embeds `deallocate` (memory.py lines 119-126): returns whether an occupied
block with the exact start was found; on success the block list is the merged
list and the absorbed blocks move to the graveyard. -/
def deallocate (m : MemoryManager) (start : Int) : Bool × MemoryManager :=
  match deallocAux start m.blocks with
  | some blocks1 =>
    let p := mergeFreeBlocks blocks1
    (true, { m with blocks := p.1, graveyard := m.graveyard ++ p.2 })
  | none => (false, m)

/-- Insertion step of the stable ascending sort by `start` used to model
`allocated_blocks.sort(key=lambda b: b.start)` in `compact_memory`. -/
def insertByStart (a : MemoryBlock) : List MemoryBlock → List MemoryBlock
  | [] => [a]
  | b :: rest => if a.start ≤ b.start then a :: b :: rest else b :: insertByStart a rest

/-- Stable ascending sort by `start`; as a function it agrees with Python's
stable `list.sort(key=lambda b: b.start)` (a stable sort by a key is unique). -/
def sortByStart : List MemoryBlock → List MemoryBlock
  | [] => []
  | a :: rest => insertByStart a (sortByStart rest)

/-- The reassignment loop of `compact_memory` (memory.py lines 143-146):
give the blocks consecutive starts beginning at `pos`. -/
def assignStarts (pos : Int) : List MemoryBlock → List MemoryBlock
  | [] => []
  | b :: rest => { b with start := pos } :: assignStarts (pos + b.size) rest

/-- Embeds `compact_memory` (memory.py lines 137-152): keep the occupied
blocks sorted by start, pack them from address 0, and append one trailing
free block holding all free space when that space is positive.  The dropped
free block objects move to the graveyard. -/
def compact_memory (m : MemoryManager) : MemoryManager :=
  let allocated := m.blocks.filter (fun b => !b.is_free)
  let freeBlocks := m.blocks.filter (fun b => b.is_free)
  let free_space := sumSizes freeBlocks
  let placed := assignStarts 0 (sortByStart allocated)
  if 0 < free_space then
    { m with blocks := placed ++ [⟨m.next_id, sumSizes (sortByStart allocated), free_space, true, none, m.clock, 0⟩],
             next_id := m.next_id + 1, clock := m.clock + 1,
             compaction_count := m.compaction_count + 1,
             graveyard := m.graveyard ++ freeBlocks }
  else
    { m with blocks := placed,
             compaction_count := m.compaction_count + 1,
             graveyard := m.graveyard ++ freeBlocks }

/-- Dereference a queued block identity: the object is either still in
`blocks` (live, current attributes) or in the graveyard (removed, frozen
attributes), exactly as a Python reference sees it. -/
def lookupIn (blocks grave : List MemoryBlock) (i : Nat) : Option MemoryBlock :=
  match blocks.find? (fun b => b.id == i) with
  | some b => some b
  | none => grave.find? (fun b => b.id == i)

/-- The while-loop of `_fifo_page_replacement` (memory.py lines 50-57) up to
the first occupied entry: pop queue entries, skipping the ones whose object is
free, and return the first occupied object together with the remaining queue
(`none` when the queue runs out). -/
def popAux (blocks grave : List MemoryBlock) : List Nat → Option MemoryBlock × List Nat
  | [] => (none, [])
  | i :: rest =>
    match lookupIn blocks grave i with
    | some b => if b.is_free then popAux blocks grave rest else (some b, rest)
    | none => popAux blocks grave rest

/-- Pop the FIFO queue on the manager until an occupied object surfaces. -/
def popUntilOccupied (m : MemoryManager) : Option MemoryBlock × MemoryManager :=
  let p := popAux m.blocks m.graveyard m.replacement_queue
  (p.1, { m with replacement_queue := p.2 })

/-- Python's `min(blocks, key=key)`: the first element attaining the minimal
key (used by `_lru_page_replacement` and `_lfu_page_replacement`). -/
def firstMinBy (key : MemoryBlock → Nat) : List MemoryBlock → Option MemoryBlock
  | [] => none
  | b :: rest =>
    match firstMinBy key rest with
    | some c => if key c < key b then some c else some b
    | none => some b

/-- Cursor read of `_next_fit`: `getattr(self, '_last_allocation_index', 0)`. -/
def cursorOf (m : MemoryManager) : Nat :=
  m.last_allocation_index.getD 0

/-- The placement dispatch of `allocate` (memory.py line 30):
`getattr(self, "_" + algorithm.lower().replace(' ', '_'))(size, process_id)`.
The four names admitted by `set_algorithm` are dispatched; for any other
string Python's `getattr` would raise, but `set_algorithm` (memory.py lines
182-184) confines the field to these four names, so the fall-through arm is
unreachable through the class interface.  `_next_fit` stores the chosen index
in `_last_allocation_index` before splitting. -/
def tryPlacement (m : MemoryManager) (size pid : Int) : Option Int × MemoryManager :=
  if m.algorithm == "First Fit" then
    match firstFitIdx size m.blocks with
    | some i => let p := splitBlock m i size pid
                (some p.1, p.2)
    | none => (none, m)
  else if m.algorithm == "Best Fit" then
    match bestFitIdx size m.blocks with
    | some i => let p := splitBlock m i size pid
                (some p.1, p.2)
    | none => (none, m)
  else if m.algorithm == "Worst Fit" then
    match worstFitIdx size m.blocks with
    | some i => let p := splitBlock m i size pid
                (some p.1, p.2)
    | none => (none, m)
  else if m.algorithm == "Next Fit" then
    match nextFitIdx size m.blocks (cursorOf m) with
    | some i => let m0 := { m with last_allocation_index := some i }
                let p := splitBlock m0 i size pid
                (some p.1, p.2)
    | none => (none, m)
  else (none, m)

/-- Occupied blocks of a list. -/
def occBlocks (l : List MemoryBlock) : List MemoryBlock :=
  l.filter (fun b => !b.is_free)

/-- Number of occupied blocks of a manager. -/
def occupiedCount (m : MemoryManager) : Nat :=
  (occBlocks m.blocks).length

/-- Embeds `page_replace` (memory.py lines 40-48) together with the three
replacement routines (lines 50-75), parametrized by the re-dispatched
allocation call (`return self.allocate(size, process_id)` on lines 56, 66
and 75), which `allocateFuel` below instantiates with itself at one less
fuel.  The third result component counts the victim removals this cascade
performed: the `deallocate` calls on queue entries or LRU/LFU victims that
returned `True`. -/
def pageReplaceStep (alloc : MemoryManager → Option (Option Int × MemoryManager × Nat))
    (m : MemoryManager) : Option (Option Int × MemoryManager × Nat) :=
  if m.page_replacement_algorithm == "FIFO" then
    match popUntilOccupied m with
    | (some b, m3) =>
      let d := deallocate m3 b.start
      match alloc d.2 with
      | some (r, m5, k) => some (r, m5, if d.1 then k + 1 else k)
      | none => none
    | (none, m3) => some (none, m3, 0)
  else if m.page_replacement_algorithm == "LRU" then
    match firstMinBy (fun b => b.timestamp) (occBlocks m.blocks) with
    | some victim =>
      let d := deallocate m victim.start
      match alloc d.2 with
      | some (r, m4, k) => some (r, m4, if d.1 then k + 1 else k)
      | none => none
    | none => some (none, m, 0)
  else if m.page_replacement_algorithm == "LFU" then
    match firstMinBy (fun b => b.access_count) (occBlocks m.blocks) with
    | some victim =>
      let d := deallocate m victim.start
      match alloc d.2 with
      | some (r, m4, k) => some (r, m4, if d.1 then k + 1 else k)
      | none => none
    | none => some (none, m, 0)
  else some (none, m, 0)

/-- Embeds `allocate` (memory.py lines 27-38): bump `total_allocations`,
dispatch placement, and on placement failure bump `failed_allocations` and
fall back to page replacement, which re-dispatches `allocate` recursively.
The source recursion is modelled with explicit fuel: `none` means the fuel
ran out (which theorem `c4_allocate_cascade_terminates` shows cannot happen
for the bound `allocate` below uses). -/
def allocateFuel : Nat → MemoryManager → Int → Int → Option (Option Int × MemoryManager × Nat)
  | 0, _, _, _ => none
  | fuel + 1, m, size, pid =>
    let m0 := { m with total_allocations := m.total_allocations + 1 }
    match tryPlacement m0 size pid with
    | (some s, m1) =>
      some (some s, { m1 with allocation_history := m1.allocation_history ++ [(pid, size)] }, 0)
    | (none, m1) =>
      pageReplaceStep (fun mm => allocateFuel fuel mm size pid)
        { m1 with failed_allocations := m1.failed_allocations + 1 }

/-- Fuel bound for the allocation cascade: each recursive re-dispatch either
consumes at least one FIFO queue entry or frees one occupied block, so this
bound is never exhausted (theorem `c4_allocate_cascade_terminates`). -/
def fuelBound (m : MemoryManager) : Nat :=
  m.replacement_queue.length + occupiedCount m + 2

/-- Embeds `allocate` (memory.py lines 27-38).  The fall-back arm for
exhausted fuel is unreachable (theorem `c4_allocate_cascade_terminates`). -/
def allocate (m : MemoryManager) (size pid : Int) : Option Int × MemoryManager :=
  match allocateFuel (fuelBound m) m size pid with
  | some (r, m', _) => (r, m')
  | none => (none, m)

/-- Embeds `get_memory_state` (memory.py lines 176-177). -/
def get_memory_state (m : MemoryManager) : List (Int × Int × Bool × Option Int) :=
  m.blocks.map (fun b => (b.start, b.size, b.is_free, b.process_id))

/-- The list comprehension of `set_memory_state` (memory.py line 180):
rebuild a block object for every tuple, in order; each construction takes a
fresh identity and a fresh construction time. -/
def buildBlocks (nid clk : Nat) : List (Int × Int × Bool × Option Int) → List MemoryBlock × Nat × Nat
  | [] => ([], nid, clk)
  | (s, sz, f, pid) :: rest =>
    let p := buildBlocks (nid + 1) (clk + 1) rest
    (⟨nid, s, sz, f, pid, clk, 0⟩ :: p.1, p.2)

/-- Embeds `set_memory_state` (memory.py lines 179-180): replaces `blocks`
wholesale with freshly constructed objects; every other field is untouched,
and the replaced objects (still referenced from `replacement_queue`) move to
the graveyard. -/
def set_memory_state (m : MemoryManager) (state : List (Int × Int × Bool × Option Int)) : MemoryManager :=
  let p := buildBlocks m.next_id m.clock state
  { m with blocks := p.1, next_id := p.2.1, clock := p.2.2,
           graveyard := m.graveyard ++ m.blocks }

/-- Embeds `set_algorithm` (memory.py lines 182-184). -/
def set_algorithm (m : MemoryManager) (a : String) : MemoryManager :=
  if a == "First Fit" || a == "Best Fit" || a == "Worst Fit" || a == "Next Fit" then
    { m with algorithm := a }
  else m

/-- Embeds `set_page_replacement_algorithm` (memory.py lines 186-188):
only the three listed names are accepted; any other argument (including
"None", the value the application shell passes to disable eviction) leaves
the field unchanged. -/
def set_page_replacement_algorithm (m : MemoryManager) (a : String) : MemoryManager :=
  if a == "FIFO" || a == "LRU" || a == "LFU" then
    { m with page_replacement_algorithm := a }
  else m

/-- The mutating calls a driver can issue for the invariant claim:
`allocate`, `deallocate`, `compact_memory`, and the two algorithm setters. -/
inductive Op where
  | alloc (size pid : Int)
  | dealloc (start : Int)
  | compact
  | setAlg (a : String)
  | setPR (a : String)
  deriving DecidableEq, Repr

/-- Execute one call on the manager. -/
def runOp (m : MemoryManager) : Op → MemoryManager
  | Op.alloc size pid => (allocate m size pid).2
  | Op.dealloc start => (deallocate m start).2
  | Op.compact => compact_memory m
  | Op.setAlg a => set_algorithm m a
  | Op.setPR a => set_page_replacement_algorithm m a

/-- Execute a sequence of calls. -/
def run (m : MemoryManager) : List Op → MemoryManager
  | [] => m
  | op :: ops => run (runOp m op) ops

/-- Every `alloc` in the sequence requests a positive size. -/
def opsPositive : List Op → Bool
  | [] => true
  | Op.alloc size _ :: ops => decide (0 < size) && opsPositive ops
  | _ :: ops => opsPositive ops

/-! ## Example states used by concrete claim instances and witnesses -/

/-- A fresh manager of capacity 20 (used for the FirstFit instance of the spec). -/
def exM20 : MemoryManager := mkManager 20

/-- A fresh manager of capacity 10. -/
def exM10 : MemoryManager := mkManager 10

/-- Capacity 10, completely filled by one allocation of process 1. -/
def exMFull : MemoryManager := (allocate exM10 10 1).2

/-- `exMFull` after the application shell asks to disable eviction with
`set_page_replacement_algorithm("None")`. -/
def exMNone : MemoryManager := set_page_replacement_algorithm exMFull "None"

/-- Partition with free regions of sizes 30, 10 and 50 at offsets 0, 35 and 50,
separated by two occupied regions of process 9 (the BestFit/WorstFit scenery
of the spec). -/
def c6blocks : List MemoryBlock :=
  [⟨0, 0, 30, true, none, 0, 0⟩, ⟨1, 30, 5, false, some 9, 0, 1⟩,
   ⟨2, 35, 10, true, none, 0, 0⟩, ⟨3, 45, 5, false, some 9, 0, 1⟩,
   ⟨4, 50, 50, true, none, 0, 0⟩]

/-- Manager over `c6blocks` running Best Fit. -/
def c6Best : MemoryManager :=
  { total_size := 100, blocks := c6blocks, algorithm := "Best Fit",
    page_replacement_algorithm := "FIFO", failed_allocations := 0, total_allocations := 2,
    allocation_history := [(9, 5), (9, 5)], compaction_count := 0, replacement_queue := [1, 3],
    last_allocation_index := none, next_id := 5, clock := 2, graveyard := [] }

/-- Manager over `c6blocks` running Worst Fit. -/
def c6Worst : MemoryManager := { c6Best with algorithm := "Worst Fit" }

/-- A valid three-region partition of capacity 20 (witness state for the
compaction claim): occupied 5 at 0, free 5 at 5, occupied 10 at 10. -/
def c8Ex : MemoryManager :=
  { total_size := 20,
    blocks := [⟨0, 0, 5, false, some 1, 1, 1⟩, ⟨1, 5, 5, true, none, 1, 0⟩,
               ⟨2, 10, 10, false, some 2, 2, 1⟩],
    algorithm := "First Fit", page_replacement_algorithm := "FIFO",
    failed_allocations := 0, total_allocations := 2, allocation_history := [(1, 5), (2, 10)],
    compaction_count := 0, replacement_queue := [0, 2], last_allocation_index := none,
    next_id := 3, clock := 3, graveyard := [] }

/-- The first occupied tuple whose start is `s` is removed; everything else is
kept in order.  Modelled from the claim's words for `deallocate`: the found
region stops being occupied while all other regions are untouched. -/
def specEraseFirstAt (s : Int) : List (Int × Int × Option Int) → List (Int × Int × Option Int)
  | [] => []
  | t :: rest => if t.1 == s then rest else t :: specEraseFirstAt s rest

/-- `(start, size, owner)` tuples of the occupied blocks, in list order. -/
def occTuples (l : List MemoryBlock) : List (Int × Int × Option Int) :=
  (l.filter (fun b => !b.is_free)).map (fun b => (b.start, b.size, b.process_id))

/-- `(size, owner)` tuples of the occupied blocks, in list order (the data a
compaction must preserve). -/
def occSP (l : List MemoryBlock) : List (Int × Option Int) :=
  (l.filter (fun b => !b.is_free)).map (fun b => (b.size, b.process_id))

/-- All blocks except a possible last one are occupied: free space only as a
single trailing region. -/
def freeOnlyTrailing (l : List MemoryBlock) : Bool :=
  l.dropLast.all (fun b => !b.is_free)

/-- The partition invariant of the spec: the block list tiles `[0, ...)`
contiguously, all sizes are positive, the sizes sum to the capacity, and no
two adjacent blocks are both free. -/
def InvP (m : MemoryManager) : Prop :=
  chainFrom 0 m.blocks = true ∧ allPos m.blocks = true ∧
  sumSizes m.blocks = m.total_size ∧ noAdjFree m.blocks = true

/-! ## Lemmas about state export and import -/

theorem buildBlocks_toTuples (l : List (Int × Int × Bool × Option Int)) :
    ∀ nid clk, ((buildBlocks nid clk l).1).map (fun b => (b.start, b.size, b.is_free, b.process_id)) = l := by
  induction l with
  | nil => intro nid clk; rfl
  | cons t rest ih =>
    intro nid clk
    obtain ⟨s, sz, f, pid⟩ := t
    simp [buildBlocks, ih]

theorem buildBlocks_clk_mono (l : List (Int × Int × Bool × Option Int)) :
    ∀ nid clk, clk < (buildBlocks nid clk l).2.2 ∨ ((buildBlocks nid clk l).2.2 = clk ∧ l = []) := by
  induction l with
  | nil => intro nid clk; right; exact ⟨rfl, rfl⟩
  | cons t rest ih =>
    intro nid clk
    obtain ⟨s, sz, f, pid⟩ := t
    left
    rcases ih (nid + 1) (clk + 1) with h | ⟨h, _⟩ <;> simp only [buildBlocks] <;> omega

theorem buildBlocks_fresh (l : List (Int × Int × Bool × Option Int)) :
    ∀ nid clk b, b ∈ (buildBlocks nid clk l).1 →
      b.access_count = 0 ∧ clk ≤ b.timestamp ∧ b.timestamp < (buildBlocks nid clk l).2.2 ∧ nid ≤ b.id := by
  induction l with
  | nil => intro nid clk b h; simp [buildBlocks] at h
  | cons t rest ih =>
    intro nid clk b h
    obtain ⟨s, sz, f, pid⟩ := t
    simp only [buildBlocks, List.mem_cons] at h
    have h22 : (buildBlocks nid clk ((s, sz, f, pid) :: rest)).2.2
        = (buildBlocks (nid + 1) (clk + 1) rest).2.2 := rfl
    rcases h with h | h
    · subst h
      have hm := buildBlocks_clk_mono rest (nid + 1) (clk + 1)
      refine ⟨rfl, le_refl _, ?_, le_refl _⟩
      rw [h22]
      show clk < _
      rcases hm with h | ⟨h, _⟩ <;> omega
    · obtain ⟨h1, h2, h3, h4⟩ := ih (nid + 1) (clk + 1) b h
      rw [h22]
      exact ⟨h1, by omega, h3, by omega⟩

/-- C9: for every manager state, `set_memory_state` applied to the list
returned by `get_memory_state` yields a manager whose exported
`(start, size, occupied, owner)` list is identical, in order and values,
to the one exported. -/
theorem c9_export_import_round_trip (m : MemoryManager) :
    get_memory_state (set_memory_state m (get_memory_state m)) = get_memory_state m := by
  simp only [get_memory_state, set_memory_state]
  exact buildBlocks_toTuples _ _ _

/-- C10: `set_memory_state` replaces only the block list: the eviction
replacement queue, the request and failure counters and the NextFit cursor are
unchanged, and every imported block is a freshly constructed object
(identity at least the pre-import `next_id`, so the queue keeps referencing
the pre-import objects) with `access_count` 0 and a timestamp taken during
the import, so LRU/LFU ordering from before the export is not reproduced. -/
theorem c10_import_replaces_only_blocks (m : MemoryManager)
    (st : List (Int × Int × Bool × Option Int)) :
    (set_memory_state m st).replacement_queue = m.replacement_queue ∧
    (set_memory_state m st).total_allocations = m.total_allocations ∧
    (set_memory_state m st).failed_allocations = m.failed_allocations ∧
    (set_memory_state m st).last_allocation_index = m.last_allocation_index ∧
    ∀ b ∈ (set_memory_state m st).blocks,
      b.access_count = 0 ∧ m.clock ≤ b.timestamp ∧
      b.timestamp < (set_memory_state m st).clock ∧ m.next_id ≤ b.id := by
  refine ⟨rfl, rfl, rfl, rfl, ?_⟩
  intro b hb
  exact buildBlocks_fresh st m.next_id m.clock b hb

/-- C2 fails on the code: `set_page_replacement_algorithm("None")` is silently
ignored (the setter admits only FIFO/LRU/LFU), so the active eviction
algorithm stays "FIFO", and an allocate call that finds no eligible free
region evicts the occupied region of process 1 and succeeds instead of
returning absence.  This theorem evaluates the code at the failing input:
a full capacity-10 manager holding one region of process 1, after the shell
asked for "None", given `allocate(5, 2)`. -/
theorem c2_eviction_not_disabled_by_none :
    exMNone.page_replacement_algorithm = "FIFO" ∧
    (allocate exMNone 5 2).1 = some 0 ∧
    (∀ b ∈ (allocate exMNone 5 2).2.blocks, b.process_id ≠ some 1) ∧
    get_memory_state (allocate exMNone 5 2).2 = [(0, 5, false, some 2), (5, 5, true, none)] := by
  decide

/-- C3 fails on the code: `allocate` performs no size validation, so a
non-positive size is not signalled as a failure.  On a fresh capacity-10
manager, `allocate(0, 1)` returns start 0 and marks a zero-size region
occupied (leaving a start-0 free region of size 10 behind it), and
`allocate(-3, 1)` returns start 0 and marks a region of size -3 occupied,
corrupting the partition. -/
theorem c3_nonpositive_size_not_rejected :
    (allocate exM10 0 1).1 = some 0 ∧
    get_memory_state (allocate exM10 0 1).2 = [(0, 0, false, some 1), (0, 10, true, none)] ∧
    (allocate exM10 (-3) 1).1 = some 0 ∧
    get_memory_state (allocate exM10 (-3) 1).2 = [(0, -3, false, some 1), (-3, 13, true, none)] := by
  decide

/-! ## Characterization of the placement scans -/

theorem firstFitAux_spec (size : Int) :
    ∀ (l : List MemoryBlock) (i0 j : Nat), firstFitAux size l i0 = some j →
      i0 ≤ j ∧ (∃ b, l.get? (j - i0) = some b ∧ elig size b = true) ∧
        ∀ k, k < j - i0 → ∀ c, l.get? k = some c → elig size c = false := by
  intro l
  induction l with
  | nil => intro i0 j h; simp [firstFitAux] at h
  | cons b rest ih =>
    intro i0 j h
    cases he : elig size b with
    | true =>
      simp [firstFitAux, he] at h
      subst h
      refine ⟨le_refl _, ⟨b, by simp, he⟩, ?_⟩
      intro k hk
      exact absurd hk (by omega)
    | false =>
      simp [firstFitAux, he] at h
      obtain ⟨h1, h2, h3⟩ := ih (i0 + 1) j h
      refine ⟨by omega, ?_, ?_⟩
      · obtain ⟨c, hc, hcel⟩ := h2
        refine ⟨c, ?_, hcel⟩
        have hji : j - i0 = (j - (i0 + 1)) + 1 := by omega
        rw [hji]
        simpa using hc
      · intro k hk c hc
        cases k with
        | zero =>
          simp at hc
          subst hc
          exact he
        | succ k' =>
          have hk' : k' < j - (i0 + 1) := by omega
          exact h3 k' hk' c (by simpa using hc)

theorem firstFitAux_none (size : Int) :
    ∀ (l : List MemoryBlock) (i0 : Nat), firstFitAux size l i0 = none ↔
      ∀ k c, l.get? k = some c → elig size c = false := by
  intro l
  induction l with
  | nil => intro i0; simp [firstFitAux]
  | cons b rest ih =>
    intro i0
    cases he : elig size b with
    | true =>
      simp [firstFitAux, he]
      exact ⟨0, b, by simp, he⟩
    | false =>
      simp only [firstFitAux, he, Bool.false_eq_true, if_false]
      rw [ih (i0 + 1)]
      constructor
      · intro h k c hc
        cases k with
        | zero => simp at hc; subst hc; exact he
        | succ k' => exact h k' c (by simpa using hc)
      · intro h k c hc
        exact h (k + 1) c (by simpa using hc)

/-- C7: on the single free region `(0, 20)`, allocating 10 under FirstFit
returns start 0 and leaves exactly `(0,10)` occupied by the owner and
`(10,10)` free; and in general the FirstFit scan chooses the first block in
address order that is free with sufficient size (every earlier block is
ineligible), returning nothing only when no eligible block exists. -/
theorem c7_first_fit_allocation :
    (allocate exM20 10 1).1 = some 0 ∧
    get_memory_state (allocate exM20 10 1).2 = [(0, 10, false, some 1), (10, 10, true, none)] ∧
    (∀ (size : Int) (blocks : List MemoryBlock) (j : Nat), firstFitIdx size blocks = some j →
      (∃ b, blocks.get? j = some b ∧ elig size b = true) ∧
      ∀ k, k < j → ∀ c, blocks.get? k = some c → elig size c = false) ∧
    (∀ (size : Int) (blocks : List MemoryBlock), firstFitIdx size blocks = none →
      ∀ k c, blocks.get? k = some c → elig size c = false) := by
  refine ⟨by decide, by decide, ?_, ?_⟩
  · intro size blocks j h
    obtain ⟨_, h2, h3⟩ := firstFitAux_spec size blocks 0 j h
    constructor
    · simpa using h2
    · intro k hk c hc
      exact h3 k (by omega) c hc
  · intro size blocks h
    exact (firstFitAux_none size blocks 0).mp h

theorem bestFitAux_none (size : Int) :
    ∀ (l : List MemoryBlock), bestFitAux size l = none ↔
      ∀ k c, l.get? k = some c → elig size c = false := by
  intro l
  induction l with
  | nil => simp [bestFitAux]
  | cons b rest ih =>
    cases hrec : bestFitAux size rest with
    | some p =>
      obtain ⟨j, s⟩ := p
      simp only [bestFitAux, hrec]
      constructor
      · intro h
        cases he : elig size b <;> simp [he] at h <;> (split at h <;> simp_all)
      · intro h
        have hn := (ih.mpr fun k c hc => h (k + 1) c (by simpa using hc))
        rw [hn] at hrec
        exact absurd hrec (by simp)
    | none =>
      cases he : elig size b with
      | true =>
        simp only [bestFitAux, hrec, he]
        constructor
        · intro h; exact absurd h (by simp)
        · intro h
          have hb := h 0 b (by simp)
          rw [he] at hb
          exact absurd hb (by simp)
      | false =>
        simp only [bestFitAux, hrec, he, Bool.false_eq_true, if_false]
        constructor
        · intro _ k c hc
          cases k with
          | zero => simp at hc; subst hc; exact he
          | succ k' => exact (ih.mp hrec) k' c (by simpa using hc)
        · intro _; trivial

theorem bestFitAux_spec (size : Int) :
    ∀ (l : List MemoryBlock) (j : Nat) (s : Int), bestFitAux size l = some (j, s) →
      (∃ b, l.get? j = some b ∧ elig size b = true ∧ b.size = s) ∧
      (∀ k c, l.get? k = some c → elig size c = true → s ≤ c.size) ∧
      (∀ k, k < j → ∀ c, l.get? k = some c → elig size c = true → s < c.size) := by
  intro l
  induction l with
  | nil => intro j s h; simp [bestFitAux] at h
  | cons b rest ih =>
    intro j s h
    cases hrec : bestFitAux size rest with
    | some p =>
      obtain ⟨j', s'⟩ := p
      obtain ⟨⟨c', hc', hel', hsz'⟩, hmin', hfirst'⟩ := ih j' s' hrec
      cases he : elig size b with
      | true =>
        simp only [bestFitAux, hrec, he, if_true] at h
        by_cases hlt : s' < b.size
        · rw [if_pos hlt] at h
          simp only [Option.some.injEq, Prod.mk.injEq] at h
          obtain ⟨rfl, rfl⟩ := h
          refine ⟨⟨c', by simpa using hc', hel', hsz'⟩, ?_, ?_⟩
          · intro k c hc hcel
            cases k with
            | zero => simp at hc; subst hc; omega
            | succ k' => exact hmin' k' c (by simpa using hc) hcel
          · intro k hk c hc hcel
            cases k with
            | zero => simp at hc; subst hc; exact hlt
            | succ k' => exact hfirst' k' (by omega) c (by simpa using hc) hcel
        · rw [if_neg hlt] at h
          simp only [Option.some.injEq, Prod.mk.injEq] at h
          obtain ⟨rfl, rfl⟩ := h
          refine ⟨⟨b, by simp, he, rfl⟩, ?_, ?_⟩
          · intro k c hc hcel
            cases k with
            | zero => simp at hc; subst hc; exact le_refl _
            | succ k' =>
              have := hmin' k' c (by simpa using hc) hcel
              omega
          · intro k hk c hc hcel
            exact absurd hk (by omega)
      | false =>
        simp only [bestFitAux, hrec, he, Bool.false_eq_true, if_false,
          Option.some.injEq, Prod.mk.injEq] at h
        obtain ⟨rfl, rfl⟩ := h
        refine ⟨⟨c', by simpa using hc', hel', hsz'⟩, ?_, ?_⟩
        · intro k c hc hcel
          cases k with
          | zero => simp at hc; subst hc; rw [he] at hcel; exact absurd hcel (by simp)
          | succ k' => exact hmin' k' c (by simpa using hc) hcel
        · intro k hk c hc hcel
          cases k with
          | zero => simp at hc; subst hc; rw [he] at hcel; exact absurd hcel (by simp)
          | succ k' => exact hfirst' k' (by omega) c (by simpa using hc) hcel
    | none =>
      cases he : elig size b with
      | true =>
        simp only [bestFitAux, hrec, he, if_true, Option.some.injEq, Prod.mk.injEq] at h
        obtain ⟨rfl, rfl⟩ := h
        refine ⟨⟨b, by simp, he, rfl⟩, ?_, ?_⟩
        · intro k c hc hcel
          cases k with
          | zero => simp at hc; subst hc; exact le_refl _
          | succ k' =>
            have hf := (bestFitAux_none size rest).mp hrec k' c (by simpa using hc)
            rw [hf] at hcel
            exact absurd hcel (by simp)
        · intro k hk c hc hcel
          exact absurd hk (by omega)
      | false =>
        simp only [bestFitAux, hrec, he, Bool.false_eq_true, if_false] at h
        exact absurd h (by simp)

theorem worstFitAux_none (size : Int) :
    ∀ (l : List MemoryBlock), worstFitAux size l = none ↔
      ∀ k c, l.get? k = some c → elig size c = false := by
  intro l
  induction l with
  | nil => simp [worstFitAux]
  | cons b rest ih =>
    cases hrec : worstFitAux size rest with
    | some p =>
      obtain ⟨j, s⟩ := p
      simp only [worstFitAux, hrec]
      constructor
      · intro h
        cases he : elig size b <;> simp [he] at h <;> (split at h <;> simp_all)
      · intro h
        have hn := (ih.mpr fun k c hc => h (k + 1) c (by simpa using hc))
        rw [hn] at hrec
        exact absurd hrec (by simp)
    | none =>
      cases he : elig size b with
      | true =>
        simp only [worstFitAux, hrec, he]
        constructor
        · intro h; exact absurd h (by simp)
        · intro h
          have hb := h 0 b (by simp)
          rw [he] at hb
          exact absurd hb (by simp)
      | false =>
        simp only [worstFitAux, hrec, he, Bool.false_eq_true, if_false]
        constructor
        · intro _ k c hc
          cases k with
          | zero => simp at hc; subst hc; exact he
          | succ k' => exact (ih.mp hrec) k' c (by simpa using hc)
        · intro _; trivial

theorem worstFitAux_spec (size : Int) :
    ∀ (l : List MemoryBlock) (j : Nat) (s : Int), worstFitAux size l = some (j, s) →
      (∃ b, l.get? j = some b ∧ elig size b = true ∧ b.size = s) ∧
      (∀ k c, l.get? k = some c → elig size c = true → c.size ≤ s) ∧
      (∀ k, k < j → ∀ c, l.get? k = some c → elig size c = true → c.size < s) := by
  intro l
  induction l with
  | nil => intro j s h; simp [worstFitAux] at h
  | cons b rest ih =>
    intro j s h
    cases hrec : worstFitAux size rest with
    | some p =>
      obtain ⟨j', s'⟩ := p
      obtain ⟨⟨c', hc', hel', hsz'⟩, hmax', hfirst'⟩ := ih j' s' hrec
      cases he : elig size b with
      | true =>
        simp only [worstFitAux, hrec, he, if_true] at h
        by_cases hlt : b.size < s'
        · rw [if_pos hlt] at h
          simp only [Option.some.injEq, Prod.mk.injEq] at h
          obtain ⟨rfl, rfl⟩ := h
          refine ⟨⟨c', by simpa using hc', hel', hsz'⟩, ?_, ?_⟩
          · intro k c hc hcel
            cases k with
            | zero => simp at hc; subst hc; omega
            | succ k' => exact hmax' k' c (by simpa using hc) hcel
          · intro k hk c hc hcel
            cases k with
            | zero => simp at hc; subst hc; exact hlt
            | succ k' => exact hfirst' k' (by omega) c (by simpa using hc) hcel
        · rw [if_neg hlt] at h
          simp only [Option.some.injEq, Prod.mk.injEq] at h
          obtain ⟨rfl, rfl⟩ := h
          refine ⟨⟨b, by simp, he, rfl⟩, ?_, ?_⟩
          · intro k c hc hcel
            cases k with
            | zero => simp at hc; subst hc; exact le_refl _
            | succ k' =>
              have := hmax' k' c (by simpa using hc) hcel
              omega
          · intro k hk c hc hcel
            exact absurd hk (by omega)
      | false =>
        simp only [worstFitAux, hrec, he, Bool.false_eq_true, if_false,
          Option.some.injEq, Prod.mk.injEq] at h
        obtain ⟨rfl, rfl⟩ := h
        refine ⟨⟨c', by simpa using hc', hel', hsz'⟩, ?_, ?_⟩
        · intro k c hc hcel
          cases k with
          | zero => simp at hc; subst hc; rw [he] at hcel; exact absurd hcel (by simp)
          | succ k' => exact hmax' k' c (by simpa using hc) hcel
        · intro k hk c hc hcel
          cases k with
          | zero => simp at hc; subst hc; rw [he] at hcel; exact absurd hcel (by simp)
          | succ k' => exact hfirst' k' (by omega) c (by simpa using hc) hcel
    | none =>
      cases he : elig size b with
      | true =>
        simp only [worstFitAux, hrec, he, if_true, Option.some.injEq, Prod.mk.injEq] at h
        obtain ⟨rfl, rfl⟩ := h
        refine ⟨⟨b, by simp, he, rfl⟩, ?_, ?_⟩
        · intro k c hc hcel
          cases k with
          | zero => simp at hc; subst hc; exact le_refl _
          | succ k' =>
            have hf := (worstFitAux_none size rest).mp hrec k' c (by simpa using hc)
            rw [hf] at hcel
            exact absurd hcel (by simp)
        · intro k hk c hc hcel
          exact absurd hk (by omega)
      | false =>
        simp only [worstFitAux, hrec, he, Bool.false_eq_true, if_false] at h
        exact absurd h (by simp)

theorem bestFitIdx_some (size : Int) (blocks : List MemoryBlock) (j : Nat)
    (h : bestFitIdx size blocks = some j) : ∃ s, bestFitAux size blocks = some (j, s) := by
  unfold bestFitIdx at h
  cases hb : bestFitAux size blocks with
  | none => rw [hb] at h; simp at h
  | some p =>
    rw [hb] at h
    simp at h
    refine ⟨p.2, ?_⟩
    rw [← h]

theorem worstFitIdx_some (size : Int) (blocks : List MemoryBlock) (j : Nat)
    (h : worstFitIdx size blocks = some j) : ∃ s, worstFitAux size blocks = some (j, s) := by
  unfold worstFitIdx at h
  cases hb : worstFitAux size blocks with
  | none => rw [hb] at h; simp at h
  | some p =>
    rw [hb] at h
    simp at h
    refine ⟨p.2, ?_⟩
    rw [← h]

theorem pairwise_get?_rel {R : MemoryBlock → MemoryBlock → Prop} (l : List MemoryBlock)
    (hp : l.Pairwise R) (i k : Nat) (x y : MemoryBlock) (hik : i < k)
    (hx : l.get? i = some x) (hy : l.get? k = some y) : R x y := by
  rw [List.get?_eq_some] at hx hy
  obtain ⟨hi, hx⟩ := hx
  obtain ⟨hk, hy⟩ := hy
  subst hx; subst hy
  exact List.pairwise_iff_get.mp hp ⟨i, hi⟩ ⟨k, hk⟩ hik

/-- C6: on free regions of sizes 30, 10 and 50 at distinct offsets, a request
of size 10 makes BestFit take the size-10 region exactly (flipped in place,
no extra block) while WorstFit takes the size-50 region and splits it; and in
general the BestFit scan returns an eligible block of minimal size among the
eligible ones (strictly smaller than every earlier eligible one, hence the
first such block, which in a start-sorted partition is the one of lowest
start among equal sizes), and the WorstFit scan dually returns the first
eligible block of maximal size. -/
theorem c6_best_vs_worst_fit :
    ((allocate c6Best 10 7).1 = some 35 ∧
     (allocate c6Best 10 7).2.blocks.length = 5 ∧
     get_memory_state (allocate c6Best 10 7).2 =
       [(0, 30, true, none), (30, 5, false, some 9), (35, 10, false, some 7),
        (45, 5, false, some 9), (50, 50, true, none)] ∧
     (allocate c6Worst 10 7).1 = some 50 ∧
     get_memory_state (allocate c6Worst 10 7).2 =
       [(0, 30, true, none), (30, 5, false, some 9), (35, 10, true, none),
        (45, 5, false, some 9), (50, 10, false, some 7), (60, 40, true, none)]) ∧
    (∀ (size : Int) (blocks : List MemoryBlock) (j : Nat), bestFitIdx size blocks = some j →
      ∃ b, blocks.get? j = some b ∧ elig size b = true ∧
        (∀ k c, blocks.get? k = some c → elig size c = true → b.size ≤ c.size) ∧
        (∀ k, k < j → ∀ c, blocks.get? k = some c → elig size c = true → b.size < c.size)) ∧
    (∀ (size : Int) (blocks : List MemoryBlock) (j k : Nat) (b c : MemoryBlock),
      blocks.Pairwise (fun x y => x.start < y.start) →
      bestFitIdx size blocks = some j → blocks.get? j = some b →
      blocks.get? k = some c → elig size c = true → c.size = b.size → b.start ≤ c.start) ∧
    (∀ (size : Int) (blocks : List MemoryBlock) (j : Nat), worstFitIdx size blocks = some j →
      ∃ b, blocks.get? j = some b ∧ elig size b = true ∧
        (∀ k c, blocks.get? k = some c → elig size c = true → c.size ≤ b.size) ∧
        (∀ k, k < j → ∀ c, blocks.get? k = some c → elig size c = true → c.size < b.size)) ∧
    (∀ (size : Int) (blocks : List MemoryBlock) (j k : Nat) (b c : MemoryBlock),
      blocks.Pairwise (fun x y => x.start < y.start) →
      worstFitIdx size blocks = some j → blocks.get? j = some b →
      blocks.get? k = some c → elig size c = true → c.size = b.size → b.start ≤ c.start) := by
  refine ⟨by decide, ?_, ?_, ?_, ?_⟩
  · intro size blocks j hj
    obtain ⟨s, hs⟩ := bestFitIdx_some size blocks j hj
    obtain ⟨⟨b, hb, hbe, hbs⟩, hmin, hfirst⟩ := bestFitAux_spec size blocks j s hs
    subst hbs
    exact ⟨b, hb, hbe, hmin, hfirst⟩
  · intro size blocks j k b c hpw hj hb hc hcel hsize
    obtain ⟨s, hs⟩ := bestFitIdx_some size blocks j hj
    obtain ⟨⟨b', hb', _, hbs⟩, hmin, hfirst⟩ := bestFitAux_spec size blocks j s hs
    rw [hb] at hb'
    injection hb' with hb'
    subst hb'
    subst hbs
    rcases lt_trichotomy k j with hk | hk | hk
    · have := hfirst k hk c hc hcel
      omega
    · subst hk
      rw [hb] at hc
      injection hc with hc
      subst hc
      exact le_refl _
    · exact le_of_lt (pairwise_get?_rel blocks hpw j k b c hk hb hc)
  · intro size blocks j hj
    obtain ⟨s, hs⟩ := worstFitIdx_some size blocks j hj
    obtain ⟨⟨b, hb, hbe, hbs⟩, hmax, hfirst⟩ := worstFitAux_spec size blocks j s hs
    subst hbs
    exact ⟨b, hb, hbe, hmax, hfirst⟩
  · intro size blocks j k b c hpw hj hb hc hcel hsize
    obtain ⟨s, hs⟩ := worstFitIdx_some size blocks j hj
    obtain ⟨⟨b', hb', _, hbs⟩, hmax, hfirst⟩ := worstFitAux_spec size blocks j s hs
    rw [hb] at hb'
    injection hb' with hb'
    subst hb'
    subst hbs
    rcases lt_trichotomy k j with hk | hk | hk
    · have := hfirst k hk c hc hcel
      omega
    · subst hk
      rw [hb] at hc
      injection hc with hc
      subst hc
      exact le_refl _
    · exact le_of_lt (pairwise_get?_rel blocks hpw j k b c hk hb hc)

/-! ## Lemmas about coalescing and deallocation -/

theorem occTuples_eq_map (l : List MemoryBlock) :
    occTuples l = (occBlocks l).map (fun b => (b.start, b.size, b.process_id)) := rfl

theorem occBlocks_cons (x : MemoryBlock) (l : List MemoryBlock) :
    occBlocks (x :: l) = if x.is_free = true then occBlocks l else x :: occBlocks l := by
  cases hf : x.is_free <;> simp [occBlocks, List.filter_cons, hf]

theorem mergeFreeBlocks_head (b : MemoryBlock) (rest : List MemoryBlock) :
    ∃ b' tail, (mergeFreeBlocks (b :: rest)).1 = b' :: tail ∧ b'.is_free = b.is_free ∧
      b'.start = b.start := by
  cases hm : mergeFreeBlocks rest with
  | mk l g =>
    cases l with
    | nil => exact ⟨b, [], by simp [mergeFreeBlocks, hm], rfl, rfl⟩
    | cons c merged =>
      by_cases hf : (b.is_free && c.is_free) = true
      · refine ⟨{ b with size := b.size + c.size }, merged, ?_, rfl, rfl⟩
        simp [mergeFreeBlocks, hm, hf]
      · refine ⟨b, c :: merged, ?_, rfl, rfl⟩
        simp [mergeFreeBlocks, hm, hf]

theorem noAdjFree_mergeFreeBlocks : ∀ l, noAdjFree (mergeFreeBlocks l).1 = true := by
  intro l
  induction l with
  | nil => rfl
  | cons a rest ih =>
    cases hm : mergeFreeBlocks rest with
    | mk l' g =>
      rw [hm] at ih
      cases l' with
      | nil => simp [mergeFreeBlocks, hm, noAdjFree]
      | cons b merged =>
        by_cases hf : (a.is_free && b.is_free) = true
        · have hresult : (mergeFreeBlocks (a :: rest)).1 = { a with size := a.size + b.size } :: merged := by
            simp [mergeFreeBlocks, hm, hf]
          rw [hresult]
          rw [Bool.and_eq_true] at hf
          obtain ⟨ha, hb⟩ := hf
          cases merged with
          | nil => rfl
          | cons d tail =>
            simp only [noAdjFree, Bool.and_eq_true] at ih ⊢
            have hd : d.is_free = false := by
              cases hdf : d.is_free
              · rfl
              · rw [hb, hdf] at ih; simp at ih
            refine ⟨?_, ih.2⟩
            show (!({ a with size := a.size + b.size }.is_free && d.is_free)) = true
            rw [hd]
            simp
        · have hresult : (mergeFreeBlocks (a :: rest)).1 = a :: b :: merged := by
            simp [mergeFreeBlocks, hm, hf]
          rw [hresult]
          simp only [Bool.not_eq_true] at hf
          simp only [noAdjFree, Bool.and_eq_true]
          exact ⟨by rw [hf]; simp, ih⟩

theorem chainFrom_mergeFreeBlocks : ∀ (l : List MemoryBlock) (pos : Int),
    chainFrom pos l = true → chainFrom pos (mergeFreeBlocks l).1 = true := by
  intro l
  induction l with
  | nil => intro pos h; exact h
  | cons a rest ih =>
    intro pos h
    simp only [chainFrom, Bool.and_eq_true] at h
    obtain ⟨hstart, hchain⟩ := h
    have ihr := ih (pos + a.size) hchain
    cases hm : mergeFreeBlocks rest with
    | mk l' g =>
      rw [hm] at ihr
      cases l' with
      | nil =>
        have hresult : (mergeFreeBlocks (a :: rest)).1 = [a] := by
          simp [mergeFreeBlocks, hm]
        rw [hresult]
        simp [chainFrom, hstart]
      | cons b merged =>
        simp only [chainFrom, Bool.and_eq_true] at ihr
        obtain ⟨hbstart, hbchain⟩ := ihr
        by_cases hf : (a.is_free && b.is_free) = true
        · have hresult : (mergeFreeBlocks (a :: rest)).1 = { a with size := a.size + b.size } :: merged := by
            simp [mergeFreeBlocks, hm, hf]
          rw [hresult]
          simp only [chainFrom, Bool.and_eq_true]
          refine ⟨hstart, ?_⟩
          show chainFrom (pos + (a.size + b.size)) merged = true
          have : pos + (a.size + b.size) = pos + a.size + b.size := by ring
          rw [this]
          exact hbchain
        · have hresult : (mergeFreeBlocks (a :: rest)).1 = a :: b :: merged := by
            simp [mergeFreeBlocks, hm, hf]
          rw [hresult]
          simp only [chainFrom, Bool.and_eq_true]
          exact ⟨hstart, hbstart, hbchain⟩

theorem sumSizes_mergeFreeBlocks : ∀ (l : List MemoryBlock),
    sumSizes (mergeFreeBlocks l).1 = sumSizes l := by
  intro l
  induction l with
  | nil => rfl
  | cons a rest ih =>
    cases hm : mergeFreeBlocks rest with
    | mk l' g =>
      rw [hm] at ih
      cases l' with
      | nil =>
        have hresult : (mergeFreeBlocks (a :: rest)).1 = [a] := by
          simp [mergeFreeBlocks, hm]
        rw [hresult]
        simp only [sumSizes] at ih ⊢
        omega
      | cons b merged =>
        by_cases hf : (a.is_free && b.is_free) = true
        · have hresult : (mergeFreeBlocks (a :: rest)).1 = { a with size := a.size + b.size } :: merged := by
            simp [mergeFreeBlocks, hm, hf]
          rw [hresult]
          simp only [sumSizes] at ih ⊢
          omega
        · have hresult : (mergeFreeBlocks (a :: rest)).1 = a :: b :: merged := by
            simp [mergeFreeBlocks, hm, hf]
          rw [hresult]
          simp only [sumSizes] at ih ⊢
          omega

theorem allPos_mergeFreeBlocks : ∀ (l : List MemoryBlock),
    allPos l = true → allPos (mergeFreeBlocks l).1 = true := by
  intro l
  induction l with
  | nil => intro h; exact h
  | cons a rest ih =>
    intro h
    simp only [allPos, Bool.and_eq_true, decide_eq_true_eq] at h
    obtain ⟨hapos, hrest⟩ := h
    have ihr := ih hrest
    cases hm : mergeFreeBlocks rest with
    | mk l' g =>
      rw [hm] at ihr
      cases l' with
      | nil =>
        have hresult : (mergeFreeBlocks (a :: rest)).1 = [a] := by
          simp [mergeFreeBlocks, hm]
        rw [hresult]
        simp [allPos, hapos]
      | cons b merged =>
        simp only [allPos, Bool.and_eq_true, decide_eq_true_eq] at ihr
        obtain ⟨hbpos, hmpos⟩ := ihr
        by_cases hf : (a.is_free && b.is_free) = true
        · have hresult : (mergeFreeBlocks (a :: rest)).1 = { a with size := a.size + b.size } :: merged := by
            simp [mergeFreeBlocks, hm, hf]
          rw [hresult]
          simp only [allPos, Bool.and_eq_true, decide_eq_true_eq]
          exact ⟨by show (0 : Int) < a.size + b.size; omega, hmpos⟩
        · have hresult : (mergeFreeBlocks (a :: rest)).1 = a :: b :: merged := by
            simp [mergeFreeBlocks, hm, hf]
          rw [hresult]
          simp only [allPos, Bool.and_eq_true, decide_eq_true_eq]
          exact ⟨hapos, hbpos, hmpos⟩

theorem occBlocks_mergeFreeBlocks : ∀ (l : List MemoryBlock),
    occBlocks (mergeFreeBlocks l).1 = occBlocks l := by
  intro l
  induction l with
  | nil => rfl
  | cons a rest ih =>
    cases hm : mergeFreeBlocks rest with
    | mk l' g =>
      rw [hm] at ih
      cases l' with
      | nil =>
        have hresult : (mergeFreeBlocks (a :: rest)).1 = [a] := by
          simp [mergeFreeBlocks, hm]
        rw [hresult]
        rw [occBlocks_cons a rest, occBlocks_cons a ([] : List MemoryBlock)]
        rw [← ih]
      | cons b merged =>
        by_cases hf : (a.is_free && b.is_free) = true
        · have hresult : (mergeFreeBlocks (a :: rest)).1 = { a with size := a.size + b.size } :: merged := by
            simp [mergeFreeBlocks, hm, hf]
          rw [hresult]
          rw [Bool.and_eq_true] at hf
          obtain ⟨ha, hb⟩ := hf
          rw [occBlocks_cons, occBlocks_cons a rest]
          have hafree : ({ a with size := a.size + b.size } : MemoryBlock).is_free = true := ha
          rw [if_pos hafree, if_pos ha, ← ih, occBlocks_cons, if_pos hb]
        · have hresult : (mergeFreeBlocks (a :: rest)).1 = a :: b :: merged := by
            simp [mergeFreeBlocks, hm, hf]
          rw [hresult]
          rw [occBlocks_cons a (b :: merged), occBlocks_cons a rest, ← ih]

theorem deallocAux_eq_none_iff (s : Int) : ∀ (l : List MemoryBlock),
    deallocAux s l = none ↔ ∀ b ∈ l, b.start = s → b.is_free = true := by
  intro l
  induction l with
  | nil => simp [deallocAux]
  | cons b rest ih =>
    by_cases hc : (b.start == s && !b.is_free) = true
    · have hstep : deallocAux s (b :: rest) = some ({ b with is_free := true, process_id := none } :: rest) := by
        simp [deallocAux, hc]
      rw [hstep]
      rw [Bool.and_eq_true, beq_iff_eq, Bool.not_eq_true'] at hc
      constructor
      · intro h; exact absurd h (by simp)
      · intro h
        have hb := h b (by simp) hc.1
        rw [hc.2] at hb
        exact absurd hb (by simp)
    · have hstep : deallocAux s (b :: rest) = (deallocAux s rest).map (fun l => b :: l) := by
        simp [deallocAux, hc]
      rw [hstep]
      constructor
      · intro h c hmem hcs
        cases hd : deallocAux s rest with
        | some l' => rw [hd] at h; simp at h
        | none =>
          rcases List.mem_cons.mp hmem with rfl | hmem'
          · by_cases hbf : c.is_free = true
            · exact hbf
            · exfalso
              apply hc
              rw [Bool.and_eq_true, beq_iff_eq, Bool.not_eq_true']
              exact ⟨hcs, by simpa using hbf⟩
          · exact (ih.mp hd) c hmem' hcs
      · intro h
        have hn : deallocAux s rest = none := ih.mpr (fun c hm hcs => h c (by simp [hm]) hcs)
        rw [hn]
        rfl

theorem deallocAux_spec (s : Int) : ∀ (l l' : List MemoryBlock), deallocAux s l = some l' →
    sumSizes l' = sumSizes l ∧
    (∀ pos, chainFrom pos l' = chainFrom pos l) ∧
    allPos l' = allPos l ∧
    occTuples l' = specEraseFirstAt s (occTuples l) ∧
    (occBlocks l').length + 1 = (occBlocks l).length := by
  intro l
  induction l with
  | nil => intro l' h; simp [deallocAux] at h
  | cons b rest ih =>
    intro l' h
    by_cases hc : (b.start == s && !b.is_free) = true
    · have hstep : deallocAux s (b :: rest) = some ({ b with is_free := true, process_id := none } :: rest) := by
        simp [deallocAux, hc]
      rw [hstep] at h
      injection h with h
      subst h
      rw [Bool.and_eq_true, beq_iff_eq, Bool.not_eq_true'] at hc
      obtain ⟨hbs, hbf⟩ := hc
      refine ⟨by simp [sumSizes], fun pos => by simp [chainFrom], by simp [allPos], ?_, ?_⟩
      · rw [occTuples_eq_map, occTuples_eq_map, occBlocks_cons, occBlocks_cons]
        rw [if_pos rfl, if_neg (by rw [hbf]; simp)]
        simp [specEraseFirstAt, hbs]
      · rw [occBlocks_cons, occBlocks_cons, if_pos rfl, if_neg (by rw [hbf]; simp)]
        simp
    · have hstep : deallocAux s (b :: rest) = (deallocAux s rest).map (fun l => b :: l) := by
        simp [deallocAux, hc]
      rw [hstep] at h
      cases hd : deallocAux s rest with
      | none => rw [hd] at h; simp at h
      | some l'' =>
        rw [hd] at h
        simp only [Option.map_some', Option.some.injEq] at h
        subst h
        obtain ⟨ihs, ihc, ihp, iht, ihn⟩ := ih l'' hd
        refine ⟨?_, ?_, ?_, ?_, ?_⟩
        · simp only [sumSizes, ihs]
        · intro pos
          simp only [chainFrom, ihc]
        · simp only [allPos, ihp]
        · rw [occTuples_eq_map, occTuples_eq_map, occBlocks_cons, occBlocks_cons]
          cases hbf : b.is_free with
          | true =>
            rw [if_pos rfl, if_pos rfl]
            rw [← occTuples_eq_map, ← occTuples_eq_map]
            exact iht
          | false =>
            have hbs : (b.start == s) = false := by
              cases hq : b.start == s
              · rfl
              · exfalso
                apply hc
                rw [Bool.and_eq_true, Bool.not_eq_true']
                exact ⟨hq, hbf⟩
            simp only [Bool.false_eq_true, if_false, List.map_cons]
            rw [← occTuples_eq_map, ← occTuples_eq_map]
            simp only [specEraseFirstAt, hbs, Bool.false_eq_true, if_false]
            rw [iht]
        · rw [occBlocks_cons, occBlocks_cons]
          cases hbf : b.is_free with
          | true =>
            rw [if_pos rfl, if_pos rfl]
            exact ihn
          | false =>
            simp only [Bool.false_eq_true, if_false, List.length_cons]
            omega

theorem deallocate_fst_iff (m : MemoryManager) (s : Int) :
    (deallocate m s).1 = true ↔ ∃ b ∈ m.blocks, b.start = s ∧ b.is_free = false := by
  unfold deallocate
  cases hd : deallocAux s m.blocks with
  | some l1 =>
    simp only [if_true]
    constructor
    · intro _
      by_contra hno
      push_neg at hno
      have : deallocAux s m.blocks = none := by
        rw [deallocAux_eq_none_iff]
        intro b hb hbs
        rcases Bool.eq_false_or_eq_true b.is_free with ht | hf
        · exact ht
        · exact absurd hf (hno b hb hbs)
      rw [this] at hd
      exact absurd hd (by simp)
    · intro _; trivial
  | none =>
    simp only
    constructor
    · intro h; exact absurd h (by simp)
    · rintro ⟨b, hb, hbs, hbf⟩
      have := (deallocAux_eq_none_iff s m.blocks).mp hd b hb hbs
      rw [hbf] at this
      exact absurd this (by simp)

theorem deallocate_false_eq (m : MemoryManager) (s : Int)
    (h : (deallocate m s).1 = false) : (deallocate m s).2 = m := by
  unfold deallocate at h ⊢
  cases hd : deallocAux s m.blocks with
  | some l1 => rw [hd] at h; simp at h
  | none => rfl

theorem deallocate_true_spec (m : MemoryManager) (s : Int)
    (h : (deallocate m s).1 = true) :
    noAdjFree (deallocate m s).2.blocks = true ∧
    sumSizes (deallocate m s).2.blocks = sumSizes m.blocks ∧
    occTuples (deallocate m s).2.blocks = specEraseFirstAt s (occTuples m.blocks) ∧
    (occBlocks (deallocate m s).2.blocks).length + 1 = (occBlocks m.blocks).length ∧
    (chainFrom 0 m.blocks = true → chainFrom 0 (deallocate m s).2.blocks = true) ∧
    (allPos m.blocks = true → allPos (deallocate m s).2.blocks = true) := by
  unfold deallocate at h ⊢
  cases hd : deallocAux s m.blocks with
  | none => rw [hd] at h; simp at h
  | some l1 =>
    obtain ⟨hs, hc, hp, ht, hn⟩ := deallocAux_spec s m.blocks l1 hd
    simp only
    refine ⟨noAdjFree_mergeFreeBlocks l1, ?_, ?_, ?_, ?_, ?_⟩
    · rw [sumSizes_mergeFreeBlocks, hs]
    · rw [occTuples_eq_map, occBlocks_mergeFreeBlocks, ← occTuples_eq_map, ht]
    · rw [occBlocks_mergeFreeBlocks, hn]
    · intro hch
      exact chainFrom_mergeFreeBlocks l1 0 (by rw [hc 0]; exact hch)
    · intro hap
      exact allPos_mergeFreeBlocks l1 (by rw [hp]; exact hap)

/-- C5: `deallocate(start)` returns success exactly when the block list holds
an occupied block whose start matches exactly; on success the block list
afterwards carries the same total size, its occupied regions are the original
ones minus precisely that region (owner gone from the occupied side), and no
two adjacent blocks are left free (the freed region was coalesced with its
free neighbours on both sides); on failure the manager is unchanged. -/
theorem c5_deallocate_exact_match (m : MemoryManager) (s : Int) :
    ((deallocate m s).1 = true ↔ ∃ b ∈ m.blocks, b.start = s ∧ b.is_free = false) ∧
    ((deallocate m s).1 = false → (deallocate m s).2 = m) ∧
    ((deallocate m s).1 = true →
      noAdjFree (deallocate m s).2.blocks = true ∧
      sumSizes (deallocate m s).2.blocks = sumSizes m.blocks ∧
      occTuples (deallocate m s).2.blocks = specEraseFirstAt s (occTuples m.blocks)) := by
  refine ⟨deallocate_fst_iff m s, deallocate_false_eq m s, ?_⟩
  intro h
  obtain ⟨h1, h2, h3, _, _, _⟩ := deallocate_true_spec m s h
  exact ⟨h1, h2, h3⟩

/-- Witness for C5 at a concrete state: deallocating start 0 of `c8Ex`
succeeds and leaves no two adjacent free blocks. -/
theorem c5_witness :
    (deallocate c8Ex 0).1 = true ∧ noAdjFree (deallocate c8Ex 0).2.blocks = true := by
  refine ⟨by decide, ((c5_deallocate_exact_match c8Ex 0).2.2 (by decide)).1⟩

/-! ## Frame lemmas for the allocation cascade -/

theorem tryPlacement_none (m : MemoryManager) (size pid : Int)
    (h : (tryPlacement m size pid).1 = none) : tryPlacement m size pid = (none, m) := by
  unfold tryPlacement at h ⊢
  by_cases h1 : (m.algorithm == "First Fit") = true
  · rw [if_pos h1] at h ⊢
    cases hf : firstFitIdx size m.blocks with
    | some i => rw [hf] at h; simp at h
    | none => rfl
  · rw [if_neg h1] at h ⊢
    by_cases h2 : (m.algorithm == "Best Fit") = true
    · rw [if_pos h2] at h ⊢
      cases hf : bestFitIdx size m.blocks with
      | some i => rw [hf] at h; simp at h
      | none => rfl
    · rw [if_neg h2] at h ⊢
      by_cases h3 : (m.algorithm == "Worst Fit") = true
      · rw [if_pos h3] at h ⊢
        cases hf : worstFitIdx size m.blocks with
        | some i => rw [hf] at h; simp at h
        | none => rfl
      · rw [if_neg h3] at h ⊢
        by_cases h4 : (m.algorithm == "Next Fit") = true
        · rw [if_pos h4] at h ⊢
          cases hf : nextFitIdx size m.blocks (cursorOf m) with
          | some i => rw [hf] at h; simp at h
          | none => rfl
        · rw [if_neg h4] at h ⊢

theorem popAux_spec (blocks grave : List MemoryBlock) : ∀ (q : List Nat),
    (∀ b q', popAux blocks grave q = (some b, q') →
        q'.length < q.length ∧ b.is_free = false) ∧
    (∀ q', popAux blocks grave q = (none, q') → q' = []) := by
  intro q
  induction q with
  | nil =>
    constructor
    · intro b q' h
      simp [popAux] at h
    · intro q' h
      simp only [popAux] at h
      exact (Prod.mk.injEq _ _ _ _ ▸ h).symm.1.symm ▸ rfl
  | cons i rest ih =>
    constructor
    · intro b q' h
      cases hl : lookupIn blocks grave i with
      | some c =>
        simp only [popAux, hl] at h
        by_cases hcf : c.is_free = true
        · rw [if_pos hcf] at h
          have hr := ih.1 b q' h
          exact ⟨by simpa using Nat.lt_succ_of_lt hr.1, hr.2⟩
        · rw [if_neg hcf] at h
          rw [Prod.mk.injEq] at h
          obtain ⟨hcb, hq⟩ := h
          injection hcb with hcb
          subst hcb
          subst hq
          exact ⟨by simp, by simpa using hcf⟩
      | none =>
        simp only [popAux, hl] at h
        have hr := ih.1 b q' h
        exact ⟨by simpa using Nat.lt_succ_of_lt hr.1, hr.2⟩
    · intro q' h
      cases hl : lookupIn blocks grave i with
      | some c =>
        simp only [popAux, hl] at h
        by_cases hcf : c.is_free = true
        · rw [if_pos hcf] at h
          exact ih.2 q' h
        · rw [if_neg hcf] at h
          rw [Prod.mk.injEq] at h
          exact absurd h.1 (by simp)
      | none =>
        simp only [popAux, hl] at h
        exact ih.2 q' h

theorem firstMinBy_mem (key : MemoryBlock → Nat) : ∀ (l : List MemoryBlock) (b : MemoryBlock),
    firstMinBy key l = some b → b ∈ l := by
  intro l
  induction l with
  | nil => intro b h; simp [firstMinBy] at h
  | cons c rest ih =>
    intro b h
    cases hr : firstMinBy key rest with
    | none =>
      simp only [firstMinBy, hr] at h
      injection h with h
      subst h
      simp
    | some d =>
      simp only [firstMinBy, hr] at h
      by_cases hk : key d < key c
      · rw [if_pos hk] at h
        injection h with h
        subst h
        exact List.mem_cons_of_mem _ (ih d hr)
      · rw [if_neg hk] at h
        injection h with h
        subst h
        simp

theorem deallocate_frame (m : MemoryManager) (s : Int) :
    (deallocate m s).2.replacement_queue = m.replacement_queue ∧
    (deallocate m s).2.total_size = m.total_size ∧
    (deallocate m s).2.algorithm = m.algorithm ∧
    (deallocate m s).2.page_replacement_algorithm = m.page_replacement_algorithm ∧
    (deallocate m s).2.last_allocation_index = m.last_allocation_index ∧
    (deallocate m s).2.total_allocations = m.total_allocations ∧
    (deallocate m s).2.failed_allocations = m.failed_allocations := by
  unfold deallocate
  cases deallocAux s m.blocks <;> exact ⟨rfl, rfl, rfl, rfl, rfl, rfl, rfl⟩

theorem deallocate_occ_le (m : MemoryManager) (s : Int) :
    (occBlocks (deallocate m s).2.blocks).length ≤ (occBlocks m.blocks).length := by
  cases hq : (deallocate m s).1 with
  | true =>
    have := (deallocate_true_spec m s hq).2.2.2.1
    omega
  | false =>
    rw [deallocate_false_eq m s hq]


theorem pageReplaceStep_spec (alloc : MemoryManager → Option (Option Int × MemoryManager × Nat))
    (F : Nat)
    (halloc : ∀ mm, fuelBound mm ≤ F → ∃ r mr k, alloc mm = some (r, mr, k) ∧ k ≤ occupiedCount mm)
    (m : MemoryManager) (hb : fuelBound m ≤ F + 1) :
    ∃ r mr k, pageReplaceStep alloc m = some (r, mr, k) ∧ k ≤ occupiedCount m := by
  unfold fuelBound occupiedCount at hb
  unfold pageReplaceStep
  split
  · -- FIFO branch
    split
    next b m3 heq2 =>
      have h2 := heq2
      unfold popUntilOccupied at h2
      rw [Prod.mk.injEq] at h2
      obtain ⟨hpop1, hpop2⟩ := h2
      have hpa : popAux m.blocks m.graveyard m.replacement_queue =
          (some b, (popAux m.blocks m.graveyard m.replacement_queue).2) := by
        rw [← hpop1]
      have hlen := (popAux_spec m.blocks m.graveyard m.replacement_queue).1 b _ hpa
      have hocc3 : (occBlocks m3.blocks).length = (occBlocks m.blocks).length := by
        rw [← hpop2]
      have hq3 : m3.replacement_queue.length < m.replacement_queue.length := by
        rw [← hpop2]
        exact hlen.1
      have hqd : (deallocate m3 b.start).2.replacement_queue = m3.replacement_queue :=
        (deallocate_frame m3 b.start).1
      have hoccd := deallocate_occ_le m3 b.start
      have hbound : fuelBound (deallocate m3 b.start).2 ≤ F := by
        unfold fuelBound occupiedCount
        rw [hqd]
        omega
      obtain ⟨r, m5, k, hrec, hk⟩ := halloc (deallocate m3 b.start).2 hbound
      simp only []
      split
      next r' m5' k' heq3 =>
        rw [hrec] at heq3
        injection heq3 with heq3
        rw [Prod.mk.injEq] at heq3
        obtain ⟨hr', heq3⟩ := heq3
        rw [Prod.mk.injEq] at heq3
        obtain ⟨hm5', hk'⟩ := heq3
        subst hr'; subst hm5'; subst hk'
        cases hd : (deallocate m3 b.start).1 with
        | true =>
          have hspec := (deallocate_true_spec m3 b.start hd).2.2.2.1
          refine ⟨r, m5, k + 1, rfl, ?_⟩
          unfold occupiedCount at hk ⊢
          omega
        | false =>
          have hdeq := deallocate_false_eq m3 b.start hd
          refine ⟨r, m5, k, rfl, ?_⟩
          rw [hdeq] at hk
          unfold occupiedCount at hk ⊢
          omega
      next heq3 =>
        rw [hrec] at heq3
        exact absurd heq3 (by simp)
    next m3 heq2 =>
      exact ⟨none, m3, 0, rfl, Nat.zero_le _⟩
  · -- not FIFO
    split
    · -- LRU branch
      split
      next victim heq2 =>
        have hvm := firstMinBy_mem _ _ victim heq2
        simp only [occBlocks, List.mem_filter] at hvm
        have hvtrue : (deallocate m victim.start).1 = true := by
          rw [deallocate_fst_iff]
          exact ⟨victim, hvm.1, rfl, by simpa using hvm.2⟩
        have hspec := (deallocate_true_spec m victim.start hvtrue).2.2.2.1
        have hqd := (deallocate_frame m victim.start).1
        have hbound : fuelBound (deallocate m victim.start).2 ≤ F := by
          unfold fuelBound occupiedCount
          rw [hqd]
          omega
        obtain ⟨r, m5, k, hrec, hk⟩ := halloc _ hbound
        simp only []
        split
        next r' m5' k' heq3 =>
          rw [hrec] at heq3
          injection heq3 with heq3
          rw [Prod.mk.injEq] at heq3
          obtain ⟨hr', heq3⟩ := heq3
          rw [Prod.mk.injEq] at heq3
          obtain ⟨hm5', hk'⟩ := heq3
          subst hr'; subst hm5'; subst hk'
          refine ⟨r, m5, k + 1, by rw [if_pos hvtrue], ?_⟩
          unfold occupiedCount at hk ⊢
          omega
        next heq3 =>
          rw [hrec] at heq3
          exact absurd heq3 (by simp)
      next heq2 =>
        exact ⟨none, m, 0, rfl, Nat.zero_le _⟩
    · -- not LRU
      split
      · -- LFU branch
        split
        next victim heq2 =>
          have hvm := firstMinBy_mem _ _ victim heq2
          simp only [occBlocks, List.mem_filter] at hvm
          have hvtrue : (deallocate m victim.start).1 = true := by
            rw [deallocate_fst_iff]
            exact ⟨victim, hvm.1, rfl, by simpa using hvm.2⟩
          have hspec := (deallocate_true_spec m victim.start hvtrue).2.2.2.1
          have hqd := (deallocate_frame m victim.start).1
          have hbound : fuelBound (deallocate m victim.start).2 ≤ F := by
            unfold fuelBound occupiedCount
            rw [hqd]
            omega
          obtain ⟨r, m5, k, hrec, hk⟩ := halloc _ hbound
          simp only []
          split
          next r' m5' k' heq3 =>
            rw [hrec] at heq3
            injection heq3 with heq3
            rw [Prod.mk.injEq] at heq3
            obtain ⟨hr', heq3⟩ := heq3
            rw [Prod.mk.injEq] at heq3
            obtain ⟨hm5', hk'⟩ := heq3
            subst hr'; subst hm5'; subst hk'
            refine ⟨r, m5, k + 1, by rw [if_pos hvtrue], ?_⟩
            unfold occupiedCount at hk ⊢
            omega
          next heq3 =>
            rw [hrec] at heq3
            exact absurd heq3 (by simp)
        next heq2 =>
          exact ⟨none, m, 0, rfl, Nat.zero_le _⟩
      · -- no recognised replacement algorithm
        exact ⟨none, m, 0, rfl, Nat.zero_le _⟩

theorem allocateFuel_main : ∀ (fuel : Nat) (m : MemoryManager) (size pid : Int),
    fuelBound m ≤ fuel →
    ∃ r mr k, allocateFuel fuel m size pid = some (r, mr, k) ∧ k ≤ occupiedCount m := by
  intro fuel
  induction fuel with
  | zero =>
    intro m size pid hb
    exfalso
    unfold fuelBound at hb
    omega
  | succ fuel ih =>
    intro m size pid hb
    simp only [allocateFuel]
    split
    next s m1 heq =>
      exact ⟨some s, _, 0, rfl, Nat.zero_le _⟩
    next m1 heq =>
      have htp1 := tryPlacement_none { m with total_allocations := m.total_allocations + 1 } size pid (by rw [heq])
      rw [heq] at htp1
      rw [Prod.mk.injEq] at htp1
      have hm1 : m1 = { m with total_allocations := m.total_allocations + 1 } := htp1.2
      subst hm1
      exact pageReplaceStep_spec _ fuel (fun mm hmm => ih mm size pid hmm) _ hb

/-- C4: every allocate call terminates: with fuel equal to the queue length
plus the occupied-block count plus two, the fuelled allocation cascade never
exhausts its fuel (so the recursion `allocate → page_replace → allocate`
always ends), the number of victim removals it performs is at most the number
of occupied regions at the first placement failure (the call's start, since a
failed placement leaves the block list untouched), and `allocate` returns its
outcome: success or absence. -/
theorem c4_allocate_cascade_terminates (m : MemoryManager) (size pid : Int) :
    ∃ r mr k, allocateFuel (fuelBound m) m size pid = some (r, mr, k) ∧
      k ≤ occupiedCount m ∧ allocate m size pid = (r, mr) := by
  obtain ⟨r, mr, k, h1, h2⟩ := allocateFuel_main (fuelBound m) m size pid (le_refl _)
  refine ⟨r, mr, k, h1, h2, ?_⟩
  unfold allocate
  rw [h1]

/-! ## Lemmas about compaction -/

theorem chainFrom_append : ∀ (l1 l2 : List MemoryBlock) (pos : Int),
    chainFrom pos (l1 ++ l2) = (chainFrom pos l1 && chainFrom (pos + sumSizes l1) l2) := by
  intro l1
  induction l1 with
  | nil =>
    intro l2 pos
    simp [chainFrom, sumSizes]
  | cons b rest ih =>
    intro l2 pos
    simp only [List.cons_append, chainFrom, sumSizes, List.append_eq]
    rw [ih l2 (pos + b.size)]
    rw [show pos + (b.size + sumSizes rest) = pos + b.size + sumSizes rest from by ring]
    cases b.start == pos <;> simp

theorem chainFrom_assignStarts : ∀ (l : List MemoryBlock) (pos : Int),
    chainFrom pos (assignStarts pos l) = true := by
  intro l
  induction l with
  | nil => intro pos; rfl
  | cons b rest ih =>
    intro pos
    simp [assignStarts, chainFrom, ih]

theorem sumSizes_assignStarts : ∀ (l : List MemoryBlock) (pos : Int),
    sumSizes (assignStarts pos l) = sumSizes l := by
  intro l
  induction l with
  | nil => intro pos; rfl
  | cons b rest ih =>
    intro pos
    simp [assignStarts, sumSizes, ih]

theorem assignStarts_assignStarts : ∀ (l : List MemoryBlock) (pos q : Int),
    assignStarts pos (assignStarts q l) = assignStarts pos l := by
  intro l
  induction l with
  | nil => intro pos q; rfl
  | cons b rest ih =>
    intro pos q
    simp [assignStarts, ih]

theorem allPos_assignStarts : ∀ (l : List MemoryBlock) (pos : Int),
    allPos (assignStarts pos l) = allPos l := by
  intro l
  induction l with
  | nil => intro pos; rfl
  | cons b rest ih =>
    intro pos
    simp [assignStarts, allPos, ih]

theorem assignStarts_sp : ∀ (l : List MemoryBlock) (pos : Int),
    (assignStarts pos l).map (fun b => (b.size, b.process_id)) = l.map (fun b => (b.size, b.process_id)) := by
  intro l
  induction l with
  | nil => intro pos; rfl
  | cons b rest ih =>
    intro pos
    simp [assignStarts, ih]

theorem assignStarts_allOcc : ∀ (l : List MemoryBlock) (pos : Int),
    (∀ b ∈ l, b.is_free = false) → ∀ b ∈ assignStarts pos l, b.is_free = false := by
  intro l
  induction l with
  | nil => intro pos _ b hb; simp [assignStarts] at hb
  | cons c rest ih =>
    intro pos hall b hb
    simp only [assignStarts, List.mem_cons] at hb
    rcases hb with hb | hb
    · subst hb
      exact hall c (by simp)
    · exact ih (pos + c.size) (fun d hd => hall d (by simp [hd])) b hb

theorem chainFrom_le_start : ∀ (l : List MemoryBlock) (pos : Int),
    chainFrom pos l = true → allPos l = true → ∀ b ∈ l, pos ≤ b.start := by
  intro l
  induction l with
  | nil => intro pos _ _ b hb; simp at hb
  | cons c rest ih =>
    intro pos hc hp b hb
    simp only [chainFrom, Bool.and_eq_true, beq_iff_eq] at hc
    simp only [allPos, Bool.and_eq_true, decide_eq_true_eq] at hp
    rcases List.mem_cons.mp hb with hb | hb
    · subst hb
      omega
    · have := ih (pos + c.size) hc.2 hp.2 b hb
      omega

theorem chainFrom_pairwise : ∀ (l : List MemoryBlock) (pos : Int),
    chainFrom pos l = true → allPos l = true →
    l.Pairwise (fun a b => a.start < b.start) := by
  intro l
  induction l with
  | nil => intro pos _ _; exact List.Pairwise.nil
  | cons c rest ih =>
    intro pos hc hp
    simp only [chainFrom, Bool.and_eq_true, beq_iff_eq] at hc
    simp only [allPos, Bool.and_eq_true, decide_eq_true_eq] at hp
    refine List.Pairwise.cons ?_ (ih (pos + c.size) hc.2 hp.2)
    intro b hb
    have := chainFrom_le_start rest (pos + c.size) hc.2 hp.2 b hb
    omega

theorem insertByStart_le (a : MemoryBlock) (l : List MemoryBlock)
    (h : ∀ b ∈ l, a.start ≤ b.start) : insertByStart a l = a :: l := by
  cases l with
  | nil => rfl
  | cons b rest =>
    unfold insertByStart
    rw [if_pos (h b (by simp))]

theorem sortByStart_eq_self : ∀ (l : List MemoryBlock),
    l.Pairwise (fun a b => a.start ≤ b.start) → sortByStart l = l := by
  intro l
  induction l with
  | nil => intro _; rfl
  | cons a rest ih =>
    intro hp
    rw [List.pairwise_cons] at hp
    unfold sortByStart
    rw [ih hp.2]
    exact insertByStart_le a rest hp.1

theorem sumSizes_filter_split : ∀ (l : List MemoryBlock),
    sumSizes (l.filter (fun b => !b.is_free)) + sumSizes (l.filter (fun b => b.is_free)) = sumSizes l := by
  intro l
  induction l with
  | nil => rfl
  | cons b rest ih =>
    cases hf : b.is_free <;> simp [List.filter_cons, hf, sumSizes] <;> omega

theorem sumSizes_pos_of_ne_nil : ∀ (l : List MemoryBlock),
    allPos l = true → l ≠ [] → 0 < sumSizes l := by
  intro l
  induction l with
  | nil => intro _ h; exact absurd rfl h
  | cons b rest ih =>
    intro hp _
    simp only [allPos, Bool.and_eq_true, decide_eq_true_eq] at hp
    cases rest with
    | nil => simp only [sumSizes]; omega
    | cons c r =>
      have := ih hp.2 (by simp)
      simp only [sumSizes] at this ⊢
      omega

theorem allPos_filter (l : List MemoryBlock) (p : MemoryBlock → Bool)
    (h : allPos l = true) : allPos (l.filter p) = true := by
  induction l with
  | nil => rfl
  | cons b rest ih =>
    simp only [allPos, Bool.and_eq_true, decide_eq_true_eq] at h
    cases hp : p b
    · simp only [List.filter_cons, hp, if_false, Bool.false_eq_true, ite_false]
      exact ih h.2
    · simp only [List.filter_cons, hp, if_true, ite_true, allPos, Bool.and_eq_true, decide_eq_true_eq]
      exact ⟨h.1, ih h.2⟩

theorem noAdjFree_tail : ∀ (b : MemoryBlock) (l : List MemoryBlock),
    noAdjFree (b :: l) = true → noAdjFree l = true := by
  intro b l h
  cases l with
  | nil => rfl
  | cons c rest =>
    simp only [noAdjFree, Bool.and_eq_true] at h
    exact h.2

theorem noAdjFree_allOcc_append : ∀ (l1 l2 : List MemoryBlock),
    (∀ b ∈ l1, b.is_free = false) → noAdjFree l2 = true → noAdjFree (l1 ++ l2) = true := by
  intro l1
  induction l1 with
  | nil => intro l2 _ h2; exact h2
  | cons a rest ih =>
    intro l2 hall h2
    have htail := ih l2 (fun b hb => hall b (by simp [hb])) h2
    have ha : a.is_free = false := hall a (by simp)
    rw [List.cons_append]
    cases hrest : rest ++ l2 with
    | nil => rfl
    | cons c r =>
      rw [hrest] at htail
      simp only [noAdjFree, Bool.and_eq_true]
      exact ⟨by rw [ha]; simp, htail⟩

theorem allPos_append : ∀ (l1 l2 : List MemoryBlock),
    allPos (l1 ++ l2) = (allPos l1 && allPos l2) := by
  intro l1
  induction l1 with
  | nil => intro l2; simp [allPos]
  | cons b rest ih =>
    intro l2
    simp [allPos, ih, Bool.and_assoc]

theorem sumSizes_append : ∀ (l1 l2 : List MemoryBlock),
    sumSizes (l1 ++ l2) = sumSizes l1 + sumSizes l2 := by
  intro l1
  induction l1 with
  | nil => intro l2; simp [sumSizes]
  | cons b rest ih =>
    intro l2
    simp only [List.cons_append, sumSizes, List.append_eq, ih]
    ring

theorem freeOnlyTrailing_allOcc (l : List MemoryBlock)
    (h : ∀ b ∈ l, b.is_free = false) : freeOnlyTrailing l = true := by
  unfold freeOnlyTrailing
  rw [List.all_eq_true]
  intro b hb
  have hmem : b ∈ l := (List.dropLast_sublist l).mem hb
  rw [h b hmem]
  simp

theorem sort_filter_occ_eq (l : List MemoryBlock)
    (hchain : chainFrom 0 l = true) (hpos : allPos l = true) :
    sortByStart (l.filter (fun b => !b.is_free)) = l.filter (fun b => !b.is_free) := by
  have hpw := chainFrom_pairwise l 0 hchain hpos
  have hpwf : List.Pairwise (fun a b : MemoryBlock => a.start < b.start)
      (l.filter (fun b => !b.is_free)) :=
    List.Pairwise.sublist (List.filter_sublist l) hpw
  exact sortByStart_eq_self _ (hpwf.imp (fun h => le_of_lt h))

theorem compact_memory_blocks_eq (m : MemoryManager)
    (hsort : sortByStart (m.blocks.filter (fun b => !b.is_free)) = m.blocks.filter (fun b => !b.is_free)) :
    (compact_memory m).blocks =
      (if 0 < sumSizes (m.blocks.filter (fun b => b.is_free)) then
        assignStarts 0 (m.blocks.filter (fun b => !b.is_free)) ++
          [⟨m.next_id, sumSizes (m.blocks.filter (fun b => !b.is_free)),
            sumSizes (m.blocks.filter (fun b => b.is_free)), true, none, m.clock, 0⟩]
      else assignStarts 0 (m.blocks.filter (fun b => !b.is_free))) := by
  simp only [compact_memory]
  rw [hsort]
  by_cases h : 0 < sumSizes (m.blocks.filter (fun b => b.is_free))
  · rw [if_pos h, if_pos h]
  · rw [if_neg h, if_neg h]

theorem compact_memory_props (m : MemoryManager)
    (hchain : chainFrom 0 m.blocks = true) (hpos : allPos m.blocks = true) :
    chainFrom 0 (compact_memory m).blocks = true ∧
    allPos (compact_memory m).blocks = true ∧
    sumSizes (compact_memory m).blocks = sumSizes m.blocks ∧
    noAdjFree (compact_memory m).blocks = true ∧
    freeOnlyTrailing (compact_memory m).blocks = true ∧
    occSP (compact_memory m).blocks = occSP m.blocks := by
  have hsort := sort_filter_occ_eq m.blocks hchain hpos
  have hbl := compact_memory_blocks_eq m hsort
  have hAocc : ∀ b ∈ m.blocks.filter (fun b => !b.is_free), b.is_free = false := by
    intro b hb
    rw [List.mem_filter] at hb
    simpa using hb.2
  have hApos : allPos (m.blocks.filter (fun b => !b.is_free)) = true :=
    allPos_filter m.blocks _ hpos
  have hPocc : ∀ b ∈ assignStarts 0 (m.blocks.filter (fun b => !b.is_free)), b.is_free = false :=
    assignStarts_allOcc _ 0 hAocc
  have hPfilter : (assignStarts 0 (m.blocks.filter (fun b => !b.is_free))).filter (fun b => !b.is_free)
      = assignStarts 0 (m.blocks.filter (fun b => !b.is_free)) := by
    rw [List.filter_eq_self]
    intro b hb
    rw [hPocc b hb]
    simp
  by_cases h : 0 < sumSizes (m.blocks.filter (fun b => b.is_free))
  · rw [hbl, if_pos h]
    refine ⟨?_, ?_, ?_, ?_, ?_, ?_⟩
    · rw [chainFrom_append]
      rw [chainFrom_assignStarts]
      simp only [Bool.true_and]
      simp only [chainFrom, Bool.and_eq_true, beq_iff_eq]
      rw [sumSizes_assignStarts]
      exact ⟨by omega, trivial⟩
    · rw [allPos_append, allPos_assignStarts, hApos]
      simp only [Bool.true_and, allPos, Bool.and_eq_true, decide_eq_true_eq]
      exact ⟨h, trivial⟩
    · rw [sumSizes_append, sumSizes_assignStarts]
      simp only [sumSizes]
      have := sumSizes_filter_split m.blocks
      omega
    · exact noAdjFree_allOcc_append _ _ hPocc rfl
    · unfold freeOnlyTrailing
      rw [List.dropLast_concat]
      rw [List.all_eq_true]
      intro b hb
      rw [hPocc b hb]
      simp
    · unfold occSP
      rw [List.filter_append, hPfilter]
      have : ([⟨m.next_id, sumSizes (m.blocks.filter (fun b => !b.is_free)),
          sumSizes (m.blocks.filter (fun b => b.is_free)), true, none, m.clock, 0⟩] :
          List MemoryBlock).filter (fun b => !b.is_free) = [] := rfl
      rw [this, List.append_nil]
      exact assignStarts_sp _ 0
  · have hfree : m.blocks.filter (fun b => b.is_free) = [] := by
      by_contra hne
      exact h (sumSizes_pos_of_ne_nil _ (allPos_filter m.blocks _ hpos) hne)
    rw [hbl, if_neg h]
    refine ⟨chainFrom_assignStarts _ 0, ?_, ?_, ?_, ?_, ?_⟩
    · rw [allPos_assignStarts]
      exact hApos
    · rw [sumSizes_assignStarts]
      have := sumSizes_filter_split m.blocks
      rw [hfree] at this
      simp only [sumSizes] at this
      omega
    · have := noAdjFree_allOcc_append (assignStarts 0 (m.blocks.filter (fun b => !b.is_free))) [] hPocc rfl
      rwa [List.append_nil] at this
    · exact freeOnlyTrailing_allOcc _ hPocc
    · unfold occSP
      rw [hPfilter]
      exact assignStarts_sp _ 0

/-- C8: compaction is idempotent on the region layout: on any state whose
blocks form a partition (contiguous from 0 with positive sizes), compacting
twice exports the same `(start, size, occupied, owner)` list as compacting
once; and after one compaction the occupied regions sit contiguously from
address 0, in their original relative order with sizes and owners intact,
followed by at most one trailing free region. -/
theorem c8_compact_idempotent (m : MemoryManager)
    (hchain : chainFrom 0 m.blocks = true) (hpos : allPos m.blocks = true) :
    get_memory_state (compact_memory (compact_memory m)) = get_memory_state (compact_memory m) ∧
    chainFrom 0 (compact_memory m).blocks = true ∧
    freeOnlyTrailing (compact_memory m).blocks = true ∧
    occSP (compact_memory m).blocks = occSP m.blocks := by
  obtain ⟨h1chain, h1pos, _, _, h1trail, h1occ⟩ := compact_memory_props m hchain hpos
  refine ⟨?_, h1chain, h1trail, h1occ⟩
  have hsort := sort_filter_occ_eq m.blocks hchain hpos
  have hbl := compact_memory_blocks_eq m hsort
  have hsort1 := sort_filter_occ_eq (compact_memory m).blocks h1chain h1pos
  have hbl1 := compact_memory_blocks_eq (compact_memory m) hsort1
  have hAocc : ∀ b ∈ m.blocks.filter (fun b => !b.is_free), b.is_free = false := by
    intro b hb
    rw [List.mem_filter] at hb
    simpa using hb.2
  have hPocc : ∀ b ∈ assignStarts 0 (m.blocks.filter (fun b => !b.is_free)), b.is_free = false :=
    assignStarts_allOcc _ 0 hAocc
  have hPfilterOcc : (assignStarts 0 (m.blocks.filter (fun b => !b.is_free))).filter (fun b => !b.is_free)
      = assignStarts 0 (m.blocks.filter (fun b => !b.is_free)) := by
    rw [List.filter_eq_self]
    intro b hb
    rw [hPocc b hb]
    simp
  have hPfilterFree : (assignStarts 0 (m.blocks.filter (fun b => !b.is_free))).filter (fun b => b.is_free)
      = [] := by
    rw [List.filter_eq_nil]
    intro b hb
    rw [hPocc b hb]
    simp
  by_cases h : 0 < sumSizes (m.blocks.filter (fun b => b.is_free))
  · rw [if_pos h] at hbl
    rw [hbl] at hbl1
    rw [List.filter_append, List.filter_append, hPfilterOcc, hPfilterFree] at hbl1
    have hfbOcc : (([⟨m.next_id, sumSizes (m.blocks.filter (fun b => !b.is_free)),
        sumSizes (m.blocks.filter (fun b => b.is_free)), true, none, m.clock, 0⟩] :
        List MemoryBlock).filter (fun b => !b.is_free)) = [] := rfl
    have hfbFree : (([⟨m.next_id, sumSizes (m.blocks.filter (fun b => !b.is_free)),
        sumSizes (m.blocks.filter (fun b => b.is_free)), true, none, m.clock, 0⟩] :
        List MemoryBlock).filter (fun b => b.is_free)) =
        [⟨m.next_id, sumSizes (m.blocks.filter (fun b => !b.is_free)),
        sumSizes (m.blocks.filter (fun b => b.is_free)), true, none, m.clock, 0⟩] := rfl
    rw [hfbOcc, hfbFree, List.append_nil, List.nil_append] at hbl1
    have hsum1 : sumSizes ([⟨m.next_id, sumSizes (m.blocks.filter (fun b => !b.is_free)),
        sumSizes (m.blocks.filter (fun b => b.is_free)), true, none, m.clock, 0⟩] :
        List MemoryBlock) = sumSizes (m.blocks.filter (fun b => b.is_free)) := by
      simp [sumSizes]
    rw [hsum1] at hbl1
    rw [if_pos h] at hbl1
    rw [assignStarts_assignStarts] at hbl1
    unfold get_memory_state
    rw [hbl1, hbl]
    rw [List.map_append, List.map_append]
    congr 1
    rw [sumSizes_assignStarts]
    rfl
  · have hfree : m.blocks.filter (fun b => b.is_free) = [] := by
      by_contra hne
      exact h (sumSizes_pos_of_ne_nil _ (allPos_filter m.blocks _ hpos) hne)
    rw [if_neg h] at hbl
    rw [hbl] at hbl1
    rw [hPfilterOcc, hPfilterFree] at hbl1
    rw [show (sumSizes ([] : List MemoryBlock)) = 0 from rfl] at hbl1
    rw [if_neg (by omega)] at hbl1
    rw [assignStarts_assignStarts] at hbl1
    unfold get_memory_state
    rw [hbl1, hbl]

/-! ## Invariant preservation -/

theorem get?_decomp : ∀ (l : List MemoryBlock) (i : Nat) (b : MemoryBlock),
    l.get? i = some b → ∃ l1 l2, l = l1 ++ b :: l2 ∧ l1.length = i := by
  intro l
  induction l with
  | nil => intro i b h; simp at h
  | cons a rest ih =>
    intro i b h
    cases i with
    | zero =>
      simp at h
      subst h
      exact ⟨[], rest, rfl, rfl⟩
    | succ i' =>
      obtain ⟨l1, l2, heq, hlen⟩ := ih i' b (by simpa using h)
      exact ⟨a :: l1, l2, by simp [heq], by simp [hlen]⟩

theorem splitList_append (size pid : Int) (nid clk : Nat) :
    ∀ (l1 : List MemoryBlock) (b : MemoryBlock) (l2 : List MemoryBlock),
    splitList size pid nid clk l1.length (l1 ++ b :: l2) =
      l1 ++ (if size < b.size then
        { b with size := size, is_free := false, process_id := some pid,
                 timestamp := clk + 1, access_count := b.access_count + 1 }
          :: (⟨nid, b.start + size, b.size - size, true, none, clk, 0⟩ : MemoryBlock) :: l2
      else
        { b with is_free := false, process_id := some pid,
                 timestamp := clk, access_count := b.access_count + 1 } :: l2) := by
  intro l1
  induction l1 with
  | nil => intro b l2; rfl
  | cons a rest ih =>
    intro b l2
    simp only [List.length_cons, List.cons_append, splitList, List.append_eq, ih]

theorem noAdjFree_append_right : ∀ (l1 l2 : List MemoryBlock),
    noAdjFree (l1 ++ l2) = true → noAdjFree l2 = true := by
  intro l1
  induction l1 with
  | nil => intro l2 h; exact h
  | cons a rest ih =>
    intro l2 h
    rw [List.cons_append] at h
    exact ih l2 (noAdjFree_tail a _ h)

theorem noAdjFree_append_left : ∀ (l1 l2 : List MemoryBlock),
    noAdjFree (l1 ++ l2) = true → noAdjFree l1 = true := by
  intro l1
  induction l1 with
  | nil => intro l2 _; rfl
  | cons a rest ih =>
    intro l2 h
    rw [List.cons_append] at h
    cases hr : rest with
    | nil => rfl
    | cons c r =>
      subst hr
      rw [List.cons_append] at h
      simp only [noAdjFree, Bool.and_eq_true] at h ⊢
      refine ⟨h.1, ?_⟩
      have := ih l2 (by rw [List.cons_append]; exact h.2)
      exact this

theorem noAdjFree_head_free (b c : MemoryBlock) (l : List MemoryBlock)
    (h : noAdjFree (b :: c :: l) = true) (hb : b.is_free = true) : c.is_free = false := by
  simp only [noAdjFree, Bool.and_eq_true] at h
  cases hc : c.is_free
  · rfl
  · rw [hb, hc] at h
    simp at h

theorem noAdjFree_append_cons : ∀ (l1 : List MemoryBlock) (x : MemoryBlock) (rest : List MemoryBlock),
    noAdjFree l1 = true → x.is_free = false → noAdjFree (x :: rest) = true →
    noAdjFree (l1 ++ x :: rest) = true := by
  intro l1
  induction l1 with
  | nil => intro x rest _ _ h2; exact h2
  | cons a l1' ih =>
    intro x rest h1 hx h2
    rw [List.cons_append]
    cases hl : l1' with
    | nil =>
      simp only [List.nil_append]
      simp only [noAdjFree, Bool.and_eq_true]
      exact ⟨by rw [hx]; simp, h2⟩
    | cons a' l1'' =>
      subst hl
      simp only [noAdjFree, Bool.and_eq_true] at h1
      have := ih x rest h1.2 hx h2
      rw [List.cons_append] at this ⊢
      simp only [noAdjFree, Bool.and_eq_true]
      exact ⟨h1.1, by rw [← List.cons_append]; exact this⟩

theorem chainFrom_pos_eq (p q : Int) (l : List MemoryBlock)
    (h : p = q) (hc : chainFrom p l = true) : chainFrom q l = true := h ▸ hc

theorem splitList_inv (size pid : Int) (nid clk : Nat) (l1 : List MemoryBlock) (b : MemoryBlock)
    (l2 : List MemoryBlock)
    (hchain : chainFrom 0 (l1 ++ b :: l2) = true)
    (hpos : allPos (l1 ++ b :: l2) = true)
    (hnaf : noAdjFree (l1 ++ b :: l2) = true)
    (hfree : b.is_free = true) (hsz : size ≤ b.size) (hszpos : 0 < size) :
    chainFrom 0 (splitList size pid nid clk l1.length (l1 ++ b :: l2)) = true ∧
    allPos (splitList size pid nid clk l1.length (l1 ++ b :: l2)) = true ∧
    sumSizes (splitList size pid nid clk l1.length (l1 ++ b :: l2)) = sumSizes (l1 ++ b :: l2) ∧
    noAdjFree (splitList size pid nid clk l1.length (l1 ++ b :: l2)) = true := by
  rw [splitList_append]
  rw [chainFrom_append, Bool.and_eq_true] at hchain
  rw [allPos_append, Bool.and_eq_true] at hpos
  obtain ⟨hc1, hc2⟩ := hchain
  obtain ⟨hp1, hp2⟩ := hpos
  simp only [chainFrom, Bool.and_eq_true, beq_iff_eq] at hc2
  obtain ⟨hbst, hc2'⟩ := hc2
  simp only [allPos, Bool.and_eq_true, decide_eq_true_eq] at hp2
  obtain ⟨hbpos, hp2'⟩ := hp2
  have hnafL := noAdjFree_append_left _ _ hnaf
  have hnafR := noAdjFree_append_right _ _ hnaf
  by_cases hlt : size < b.size
  · rw [if_pos hlt]
    refine ⟨?_, ?_, ?_, ?_⟩
    · rw [chainFrom_append, Bool.and_eq_true]
      refine ⟨hc1, ?_⟩
      simp only [chainFrom, Bool.and_eq_true, beq_iff_eq]
      refine ⟨hbst, by omega, ?_⟩
      exact chainFrom_pos_eq _ _ l2 (by ring) hc2'
    · rw [allPos_append, Bool.and_eq_true]
      refine ⟨hp1, ?_⟩
      simp only [allPos, Bool.and_eq_true, decide_eq_true_eq]
      exact ⟨hszpos, by omega, hp2'⟩
    · rw [sumSizes_append, sumSizes_append]
      simp only [sumSizes]
      omega
    · refine noAdjFree_append_cons l1 _ _ hnafL rfl ?_
      cases hl2 : l2 with
      | nil => rfl
      | cons c r =>
        subst hl2
        have hcfree := noAdjFree_head_free b c r hnafR hfree
        simp only [noAdjFree, Bool.and_eq_true]
        refine ⟨by simp, ?_, ?_⟩
        · show (!(true && c.is_free)) = true
          rw [hcfree]
          simp
        · exact noAdjFree_tail b _ hnafR
  · rw [if_neg hlt]
    refine ⟨?_, ?_, ?_, ?_⟩
    · rw [chainFrom_append, Bool.and_eq_true]
      refine ⟨hc1, ?_⟩
      simp only [chainFrom, Bool.and_eq_true, beq_iff_eq]
      exact ⟨hbst, hc2'⟩
    · rw [allPos_append, Bool.and_eq_true]
      refine ⟨hp1, ?_⟩
      simp only [allPos, Bool.and_eq_true, decide_eq_true_eq]
      exact ⟨hbpos, hp2'⟩
    · rw [sumSizes_append, sumSizes_append]
      simp only [sumSizes]
    · refine noAdjFree_append_cons l1 _ _ hnafL rfl ?_
      cases hl2 : l2 with
      | nil => rfl
      | cons c r =>
        subst hl2
        simp only [noAdjFree, Bool.and_eq_true]
        refine ⟨by simp, ?_⟩
        exact noAdjFree_tail b _ hnafR

theorem splitBlock_inv (m : MemoryManager) (i : Nat) (size pid : Int) (b : MemoryBlock)
    (hInv : InvP m) (hget : m.blocks.get? i = some b)
    (hfree : b.is_free = true) (hsz : size ≤ b.size) (hszpos : 0 < size) :
    InvP (splitBlock m i size pid).2 ∧ (splitBlock m i size pid).2.total_size = m.total_size := by
  obtain ⟨hchain, hpos, hsum, hnaf⟩ := hInv
  obtain ⟨l1, l2, hdec, hlen⟩ := get?_decomp m.blocks i b hget
  have hsl := splitList_inv size pid m.next_id m.clock l1 b l2
    (by rw [← hdec]; exact hchain) (by rw [← hdec]; exact hpos) (by rw [← hdec]; exact hnaf)
    hfree hsz hszpos
  obtain ⟨hs1, hs2, hs3, hs4⟩ := hsl
  have hblocks : (splitBlock m i size pid).2.blocks = splitList size pid m.next_id m.clock i m.blocks := by
    simp only [splitBlock, hget]
    by_cases hlt : size < b.size
    · rw [if_pos hlt]
    · rw [if_neg hlt]
  have htot : (splitBlock m i size pid).2.total_size = m.total_size := by
    simp only [splitBlock, hget]
    by_cases hlt : size < b.size
    · rw [if_pos hlt]
    · rw [if_neg hlt]
  refine ⟨⟨?_, ?_, ?_, ?_⟩, htot⟩
  · rw [hblocks, hdec, ← hlen]
    exact hs1
  · rw [hblocks, hdec, ← hlen]
    exact hs2
  · rw [hblocks, htot, hdec, ← hlen, hs3, ← hdec]
    exact hsum
  · rw [hblocks, hdec, ← hlen]
    exact hs4

theorem nextFitAux_elig (size : Int) (blocks : List MemoryBlock) (start : Nat) :
    ∀ (r i j : Nat), nextFitAux size blocks start r i = some j →
      ∃ b, blocks.get? j = some b ∧ elig size b = true := by
  intro r
  induction r with
  | zero => intro i j h; simp [nextFitAux] at h
  | succ r ih =>
    intro i j h
    cases hg : blocks.get? ((start + i) % blocks.length) with
    | some b =>
      simp only [nextFitAux, hg] at h
      by_cases he : elig size b = true
      · rw [if_pos he] at h
        injection h with h
        subst h
        exact ⟨b, hg, he⟩
      · rw [if_neg he] at h
        exact ih (i + 1) j h
    | none =>
      simp only [nextFitAux, hg] at h
      exact ih (i + 1) j h

theorem elig_split (size : Int) (b : MemoryBlock) (h : elig size b = true) :
    b.is_free = true ∧ size ≤ b.size := by
  unfold elig at h
  rw [Bool.and_eq_true, decide_eq_true_eq] at h
  exact h

theorem tryPlacement_inv (m : MemoryManager) (size pid : Int)
    (hInv : InvP m) (hszpos : 0 < size) :
    InvP (tryPlacement m size pid).2 ∧ (tryPlacement m size pid).2.total_size = m.total_size := by
  unfold tryPlacement
  by_cases h1 : (m.algorithm == "First Fit") = true
  · rw [if_pos h1]
    cases hf : firstFitIdx size m.blocks with
    | some i =>
      obtain ⟨_, ⟨b, hget, helig⟩, _⟩ := firstFitAux_spec size m.blocks 0 i hf
      rw [Nat.sub_zero] at hget
      obtain ⟨hbf, hbs⟩ := elig_split size b helig
      exact splitBlock_inv m i size pid b hInv hget hbf hbs hszpos
    | none => exact ⟨hInv, rfl⟩
  · rw [if_neg h1]
    by_cases h2 : (m.algorithm == "Best Fit") = true
    · rw [if_pos h2]
      cases hf : bestFitIdx size m.blocks with
      | some i =>
        obtain ⟨s, hs⟩ := bestFitIdx_some size m.blocks i hf
        obtain ⟨⟨b, hget, helig, _⟩, _, _⟩ := bestFitAux_spec size m.blocks i s hs
        obtain ⟨hbf, hbs⟩ := elig_split size b helig
        exact splitBlock_inv m i size pid b hInv hget hbf hbs hszpos
      | none => exact ⟨hInv, rfl⟩
    · rw [if_neg h2]
      by_cases h3 : (m.algorithm == "Worst Fit") = true
      · rw [if_pos h3]
        cases hf : worstFitIdx size m.blocks with
        | some i =>
          obtain ⟨s, hs⟩ := worstFitIdx_some size m.blocks i hf
          obtain ⟨⟨b, hget, helig, _⟩, _, _⟩ := worstFitAux_spec size m.blocks i s hs
          obtain ⟨hbf, hbs⟩ := elig_split size b helig
          exact splitBlock_inv m i size pid b hInv hget hbf hbs hszpos
        | none => exact ⟨hInv, rfl⟩
      · rw [if_neg h3]
        by_cases h4 : (m.algorithm == "Next Fit") = true
        · rw [if_pos h4]
          cases hf : nextFitIdx size m.blocks (cursorOf m) with
          | some i =>
            obtain ⟨b, hget, helig⟩ := nextFitAux_elig size m.blocks (cursorOf m) m.blocks.length 0 i hf
            obtain ⟨hbf, hbs⟩ := elig_split size b helig
            have hInv0 : InvP { m with last_allocation_index := some i } := hInv
            have := splitBlock_inv { m with last_allocation_index := some i } i size pid b hInv0 hget hbf hbs hszpos
            exact this
          | none => exact ⟨hInv, rfl⟩
        · rw [if_neg h4]
          exact ⟨hInv, rfl⟩

theorem deallocate_inv (m : MemoryManager) (s : Int) (hInv : InvP m) :
    InvP (deallocate m s).2 ∧ (deallocate m s).2.total_size = m.total_size := by
  cases hq : (deallocate m s).1 with
  | false =>
    rw [deallocate_false_eq m s hq]
    exact ⟨hInv, rfl⟩
  | true =>
    obtain ⟨hnaf, hsum, _, _, hch, hap⟩ := deallocate_true_spec m s hq
    have htot := (deallocate_frame m s).2.1
    refine ⟨⟨hch hInv.1, hap hInv.2.1, ?_, hnaf⟩, htot⟩
    rw [hsum, hInv.2.2.1, htot]

theorem pageReplaceStep_inv (T : Int) (alloc : MemoryManager → Option (Option Int × MemoryManager × Nat))
    (halloc : ∀ mm, InvP mm → mm.total_size = T →
      ∀ r mr k, alloc mm = some (r, mr, k) → InvP mr ∧ mr.total_size = T)
    (m : MemoryManager) (hInv : InvP m) (hT : m.total_size = T) :
    ∀ r mr k, pageReplaceStep alloc m = some (r, mr, k) → InvP mr ∧ mr.total_size = T := by
  intro r mr k h
  unfold pageReplaceStep at h
  split at h
  · -- FIFO
    split at h
    next b m3 heq2 =>
      have h2 := heq2
      unfold popUntilOccupied at h2
      rw [Prod.mk.injEq] at h2
      obtain ⟨hpop1, hpop2⟩ := h2
      have hI3 : InvP m3 := by rw [← hpop2]; exact hInv
      have hT3 : m3.total_size = T := by rw [← hpop2]; exact hT
      have hId := deallocate_inv m3 b.start hI3
      simp only [] at h
      split at h
      next r' m5' k' heq3 =>
        injection h with h
        rw [Prod.mk.injEq] at h
        obtain ⟨hr', h⟩ := h
        rw [Prod.mk.injEq] at h
        obtain ⟨hm5', hk'⟩ := h
        subst hr'; subst hm5'
        exact halloc (deallocate m3 b.start).2 hId.1 (by rw [hId.2]; exact hT3) _ _ _ heq3
      next heq3 => exact absurd h (by simp)
    next m3 heq2 =>
      have h2 := heq2
      unfold popUntilOccupied at h2
      rw [Prod.mk.injEq] at h2
      obtain ⟨_, hpop2⟩ := h2
      injection h with h
      rw [Prod.mk.injEq] at h
      obtain ⟨_, h⟩ := h
      rw [Prod.mk.injEq] at h
      obtain ⟨hm3, _⟩ := h
      subst hm3
      exact ⟨by rw [← hpop2]; exact hInv, by rw [← hpop2]; exact hT⟩
  · -- not FIFO
    split at h
    · -- LRU
      split at h
      next victim heq2 =>
        have hId := deallocate_inv m victim.start hInv
        simp only [] at h
        split at h
        next r' m5' k' heq3 =>
          injection h with h
          rw [Prod.mk.injEq] at h
          obtain ⟨hr', h⟩ := h
          rw [Prod.mk.injEq] at h
          obtain ⟨hm5', hk'⟩ := h
          subst hr'; subst hm5'
          exact halloc (deallocate m victim.start).2 hId.1 (by rw [hId.2]; exact hT) _ _ _ heq3
        next heq3 => exact absurd h (by simp)
      next heq2 =>
        injection h with h
        rw [Prod.mk.injEq] at h
        obtain ⟨_, h⟩ := h
        rw [Prod.mk.injEq] at h
        obtain ⟨hm, _⟩ := h
        subst hm
        exact ⟨hInv, hT⟩
    · -- not LRU
      split at h
      · -- LFU
        split at h
        next victim heq2 =>
          have hId := deallocate_inv m victim.start hInv
          simp only [] at h
          split at h
          next r' m5' k' heq3 =>
            injection h with h
            rw [Prod.mk.injEq] at h
            obtain ⟨hr', h⟩ := h
            rw [Prod.mk.injEq] at h
            obtain ⟨hm5', hk'⟩ := h
            subst hr'; subst hm5'
            exact halloc (deallocate m victim.start).2 hId.1 (by rw [hId.2]; exact hT) _ _ _ heq3
          next heq3 => exact absurd h (by simp)
        next heq2 =>
          injection h with h
          rw [Prod.mk.injEq] at h
          obtain ⟨_, h⟩ := h
          rw [Prod.mk.injEq] at h
          obtain ⟨hm, _⟩ := h
          subst hm
          exact ⟨hInv, hT⟩
      · -- no recognised replacement algorithm
        injection h with h
        rw [Prod.mk.injEq] at h
        obtain ⟨_, h⟩ := h
        rw [Prod.mk.injEq] at h
        obtain ⟨hm, _⟩ := h
        subst hm
        exact ⟨hInv, hT⟩

theorem allocateFuel_inv : ∀ (fuel : Nat) (m : MemoryManager) (size pid : Int)
    (r : Option Int) (mr : MemoryManager) (k : Nat), InvP m → 0 < size →
    allocateFuel fuel m size pid = some (r, mr, k) →
    InvP mr ∧ mr.total_size = m.total_size := by
  intro fuel
  induction fuel with
  | zero =>
    intro m size pid r mr k _ _ h
    exact absurd h (by simp [allocateFuel])
  | succ fuel ih =>
    intro m size pid r mr k hInv hs h
    simp only [allocateFuel] at h
    split at h
    next s m1 heq =>
      injection h with h
      rw [Prod.mk.injEq] at h
      obtain ⟨hr', h⟩ := h
      rw [Prod.mk.injEq] at h
      obtain ⟨hm', _⟩ := h
      subst hm'
      have hI0 : InvP { m with total_allocations := m.total_allocations + 1 } := hInv
      have := tryPlacement_inv { m with total_allocations := m.total_allocations + 1 } size pid hI0 hs
      rw [heq] at this
      exact this
    next m1 heq =>
      have htp1 := tryPlacement_none { m with total_allocations := m.total_allocations + 1 } size pid (by rw [heq])
      rw [heq] at htp1
      rw [Prod.mk.injEq] at htp1
      have hm1 : m1 = { m with total_allocations := m.total_allocations + 1 } := htp1.2
      subst hm1
      refine pageReplaceStep_inv m.total_size _ ?_ _ ?_ ?_ r mr k h
      · exact fun mm hmm hmmT r' mr' k' h' => by
          have hres := ih mm size pid r' mr' k' hmm hs h'
          exact ⟨hres.1, by rw [hres.2]; exact hmmT⟩
      · exact hInv
      · rfl

theorem allocate_inv (m : MemoryManager) (size pid : Int) (hInv : InvP m) (hs : 0 < size) :
    InvP (allocate m size pid).2 ∧ (allocate m size pid).2.total_size = m.total_size := by
  unfold allocate
  cases hf : allocateFuel (fuelBound m) m size pid with
  | none => exact ⟨hInv, rfl⟩
  | some t =>
    obtain ⟨r, mr, k⟩ := t
    exact allocateFuel_inv (fuelBound m) m size pid r mr k hInv hs hf

theorem compact_memory_inv (m : MemoryManager) (hInv : InvP m) :
    InvP (compact_memory m) ∧ (compact_memory m).total_size = m.total_size := by
  obtain ⟨hchain, hpos, hsum, hnaf⟩ := hInv
  obtain ⟨h1, h2, h3, h4, _, _⟩ := compact_memory_props m hchain hpos
  have htot : (compact_memory m).total_size = m.total_size := by
    unfold compact_memory
    simp only []
    split <;> rfl
  exact ⟨⟨h1, h2, by rw [h3, hsum, htot], h4⟩, htot⟩

theorem runOp_inv (m : MemoryManager) (op : Op) (hInv : InvP m)
    (hop : opsPositive [op] = true) :
    InvP (runOp m op) ∧ (runOp m op).total_size = m.total_size := by
  cases op with
  | alloc size pid =>
    have hs : 0 < size := by
      simp only [opsPositive, Bool.and_eq_true, decide_eq_true_eq] at hop
      exact hop.1
    exact allocate_inv m size pid hInv hs
  | dealloc s => exact deallocate_inv m s hInv
  | compact => exact compact_memory_inv m hInv
  | setAlg a =>
    simp only [runOp, set_algorithm]
    split
    · exact ⟨hInv, rfl⟩
    · exact ⟨hInv, rfl⟩
  | setPR a =>
    simp only [runOp, set_page_replacement_algorithm]
    split
    · exact ⟨hInv, rfl⟩
    · exact ⟨hInv, rfl⟩

theorem run_inv : ∀ (ops : List Op) (m : MemoryManager), InvP m → opsPositive ops = true →
    InvP (run m ops) ∧ (run m ops).total_size = m.total_size := by
  intro ops
  induction ops with
  | nil => intro m hInv _; exact ⟨hInv, rfl⟩
  | cons op rest ih =>
    intro m hInv hpos
    have hop1 : opsPositive [op] = true := by
      cases op <;> simp only [opsPositive] at hpos ⊢ <;>
        first
        | rfl
        | (rw [Bool.and_eq_true] at hpos; rw [hpos.1]; rfl)
    have hrest : opsPositive rest = true := by
      cases op <;> simp only [opsPositive] at hpos ⊢ <;>
        first
        | exact hpos
        | (rw [Bool.and_eq_true] at hpos; exact hpos.2)
    have h1 := runOp_inv m op hInv hop1
    have h2 := ih (runOp m op) h1.1 hrest
    refine ⟨h2.1, ?_⟩
    show (run (runOp m op) rest).total_size = m.total_size
    rw [h2.2, h1.2]

theorem mkManager_inv (total : Int) (h : 0 < total) : InvP (mkManager total) := by
  refine ⟨?_, ?_, ?_, ?_⟩
  · simp [mkManager, chainFrom]
  · simp only [mkManager, allPos, Bool.and_eq_true, decide_eq_true_eq]
    exact ⟨h, trivial⟩
  · simp [mkManager, sumSizes]
  · rfl

theorem ascStart_of_chain : ∀ (l : List MemoryBlock) (pos : Int),
    chainFrom pos l = true → allPos l = true → ascStart l = true := by
  intro l
  induction l with
  | nil => intro pos _ _; rfl
  | cons b rest ih =>
    intro pos hc hp
    simp only [chainFrom, Bool.and_eq_true, beq_iff_eq] at hc
    simp only [allPos, Bool.and_eq_true, decide_eq_true_eq] at hp
    cases hr : rest with
    | nil => rfl
    | cons c r =>
      subst hr
      simp only [ascStart, Bool.and_eq_true, decide_eq_true_eq]
      have hih := ih (pos + b.size) hc.2 hp.2
      refine ⟨?_, hih⟩
      simp only [chainFrom, Bool.and_eq_true, beq_iff_eq] at hc
      simp only [allPos, Bool.and_eq_true, decide_eq_true_eq] at hp
      omega

/-- C1: starting from the initial single-free-region partition, after every
sequence of `allocate` (with positive size), `deallocate`, `compact_memory`
and algorithm-setter calls, the block list is nonempty and tiles the address
space contiguously from 0 (the first block starts at 0 and each block's
start plus size is the next block's start), hence is ordered by strictly
ascending starts, its sizes sum to the capacity, and no two adjacent blocks
are both free. -/
theorem c1_partition_invariant (total : Int) (ops : List Op)
    (htotal : 0 < total) (hops : opsPositive ops = true) :
    (run (mkManager total) ops).blocks ≠ [] ∧
    chainFrom 0 (run (mkManager total) ops).blocks = true ∧
    ascStart (run (mkManager total) ops).blocks = true ∧
    sumSizes (run (mkManager total) ops).blocks = total ∧
    noAdjFree (run (mkManager total) ops).blocks = true := by
  obtain ⟨⟨hch, hpo, hsum, hnaf⟩, htot⟩ :=
    run_inv ops (mkManager total) (mkManager_inv total htotal) hops
  have hsum' : sumSizes (run (mkManager total) ops).blocks = total := by
    rw [hsum, htot]
    rfl
  refine ⟨?_, hch, ascStart_of_chain _ 0 hch hpo, hsum', hnaf⟩
  intro hnil
  rw [hnil] at hsum'
  simp only [sumSizes] at hsum'
  omega

/-- Witness for C1 at a concrete run: capacity 10, two allocations, one
deallocation and one compaction. -/
theorem c1_witness :
    (0 : Int) < 10 ∧
    opsPositive [Op.alloc 4 1, Op.alloc 3 2, Op.dealloc 0, Op.compact] = true ∧
    chainFrom 0 (run (mkManager 10) [Op.alloc 4 1, Op.alloc 3 2, Op.dealloc 0, Op.compact]).blocks = true := by
  refine ⟨by decide, by decide, ?_⟩
  exact (c1_partition_invariant 10 [Op.alloc 4 1, Op.alloc 3 2, Op.dealloc 0, Op.compact]
    (by decide) (by decide)).2.1

/-- Witness for C8 at a concrete partition (`c8Ex`). -/
theorem c8_witness :
    chainFrom 0 c8Ex.blocks = true ∧ allPos c8Ex.blocks = true ∧
    get_memory_state (compact_memory (compact_memory c8Ex)) = get_memory_state (compact_memory c8Ex) := by
  refine ⟨by decide, by decide, ?_⟩
  exact (c8_compact_idempotent c8Ex (by decide) (by decide)).1
